import Mathlib

set_option maxHeartbeats 1000000

/-
Verification of the JSON diff core of the data-formatter repository:
the diff service (jsonDiff.ts), its type definitions (DiffTypes.ts) and
the export service (diffExport.ts). The two third-party algorithms the
service calls (the structural delta engine and the character diff) are
not part of the repository; they are modelled from the specification's
contracts for them (spec sections 4.2 and 4.5).
-/

mutual
/-- JSON values as produced by the host JSON parser. Numbers are modelled
as exact rationals: the host uses IEEE doubles, but no property verified
here depends on floating-point rounding. Arrays and objects use dedicated
mutual list types so every definition below is structurally recursive and
kernel-reducible. -/
inductive JsonValue where
  | null
  | bool (b : Bool)
  | num (q : Rat)
  | str (s : String)
  | arr (xs : JsonArr)
  | obj (es : JsonObj)

/-- A JSON array: a sequence of JSON values. -/
inductive JsonArr where
  | nil
  | cons (hd : JsonValue) (tl : JsonArr)

/-- A JSON object: an insertion-ordered sequence of key/value entries. -/
inductive JsonObj where
  | nil
  | cons (key : String) (val : JsonValue) (tl : JsonObj)
end

/-- First value bound to a key, mirroring JS property lookup. -/
def objLookup : JsonObj → String → Option JsonValue
  | .nil, _ => none
  | .cons k v tl, key => if k = key then some v else objLookup tl key

/-- Whether an object has a key. -/
def hasKeyO (es : JsonObj) (key : String) : Bool :=
  (objLookup es key).isSome

/-- Concatenation of object entry sequences. -/
def appendO : JsonObj → JsonObj → JsonObj
  | .nil, es => es
  | .cons k v tl, es => .cons k v (appendO tl es)

/-- Removal of the (single, under wellformedness) entry with a key. -/
def objErase : JsonObj → String → JsonObj
  | .nil, _ => .nil
  | .cons k v tl, key => if k = key then tl else .cons k v (objErase tl key)

/-- Element of an array at an index. -/
def arrGet : JsonArr → Nat → Option JsonValue
  | .nil, _ => none
  | .cons v _, 0 => some v
  | .cons _ tl, n + 1 => arrGet tl n

mutual
/-- JS strict deep equality on JSON values, as the delta engine applies it
to scalars (spec 4.2). -/
def jeq : JsonValue → JsonValue → Bool
  | .null, .null => true
  | .bool a, .bool b => a == b
  | .num a, .num b => a == b
  | .str a, .str b => a == b
  | .arr a, .arr b => jeqA a b
  | .obj a, .obj b => jeqO a b
  | _, _ => false

/-- Deep equality on arrays. -/
def jeqA : JsonArr → JsonArr → Bool
  | .nil, .nil => true
  | .cons x xs, .cons y ys => jeq x y && jeqA xs ys
  | _, _ => false

/-- Deep equality on objects (entrywise, order-sensitive). -/
def jeqO : JsonObj → JsonObj → Bool
  | .nil, .nil => true
  | .cons k v xs, .cons k2 v2 ys => k == k2 && jeq v v2 && jeqO xs ys
  | _, _ => false
end

mutual
/-- Wellformedness of a JSON value: object key lists are duplicate-free,
recursively. Every value a JS runtime can hold satisfies this, since JS
objects cannot carry two properties with the same name. -/
def wfJ : JsonValue → Bool
  | .arr xs => wfA xs
  | .obj es => wfO es
  | _ => true

/-- Wellformedness of an array. -/
def wfA : JsonArr → Bool
  | .nil => true
  | .cons x tl => wfJ x && wfA tl

/-- Wellformedness of an object. -/
def wfO : JsonObj → Bool
  | .nil => true
  | .cons k v tl => !hasKeyO tl k && wfJ v && wfO tl
end

/-! ### The host JSON parser (spec 4.1)

The validator calls the host runtime's JSON.parse, which is not part of
the repository; it is modelled here from the spec's contract: a standard
JSON-grammar parser that either yields the parsed value or fails with the
parser's message. -/

/-- Whitespace characters of the JSON grammar. -/
def isJsonWs (c : Char) : Bool :=
  c = ' ' || c = '\t' || c = '\n' || c = '\r'

/-- Drop leading JSON whitespace. -/
def skipWs : List Char → List Char
  | [] => []
  | c :: rest => if isJsonWs c then skipWs rest else c :: rest

/-- Decimal digit test. -/
def isDigitC (c : Char) : Bool := '0' ≤ c && c ≤ '9'

/-- Value of a decimal digit character. -/
def digitVal (c : Char) : Nat := c.toNat - '0'.toNat

/-- Value of a hexadecimal digit character, if any. -/
def hexVal (c : Char) : Option Nat :=
  let n := c.toNat
  if 48 ≤ n ∧ n ≤ 57 then some (n - 48)
  else if 97 ≤ n ∧ n ≤ 102 then some (n - 87)
  else if 65 ≤ n ∧ n ≤ 70 then some (n - 55)
  else none

/-- Longest leading run of decimal digits, and the rest. -/
def takeDigits : List Char → List Char × List Char
  | [] => ([], [])
  | c :: rest =>
    if isDigitC c then
      let p := takeDigits rest
      (c :: p.1, p.2)
    else ([], c :: rest)

/-- Numeric value of a digit string. -/
def digitsToNat (ds : List Char) : Nat :=
  ds.foldl (fun n c => n * 10 + digitVal c) 0

/-- Single-character JSON string escapes. -/
def escChar : Char → Option Char
  | '"' => some '"'
  | '\\' => some '\\'
  | '/' => some '/'
  | 'b' => some (Char.ofNat 8)
  | 'f' => some (Char.ofNat 12)
  | 'n' => some '\n'
  | 'r' => some '\r'
  | 't' => some '\t'
  | _ => none

/-- Modelled from the spec (4.1): the host scanner for the body of a JSON
string literal, after the opening quote. Returns the decoded characters
and the input remaining after the closing quote. -/
def scanString (acc : List Char) : List Char → Except String (List Char × List Char)
  | [] => .error "Unexpected end of JSON input"
  | '"' :: rest => .ok (acc.reverse, rest)
  | '\\' :: esc =>
    match esc with
    | 'u' :: a :: b :: c :: d :: rest =>
      match hexVal a, hexVal b, hexVal c, hexVal d with
      | some x, some y, some z, some w =>
        scanString (Char.ofNat (((x * 16 + y) * 16 + z) * 16 + w) :: acc) rest
      | _, _, _, _ => .error "Bad Unicode escape in JSON"
    | e :: rest =>
      match escChar e with
      | some c => scanString (c :: acc) rest
      | none => .error "Bad escaped character in JSON"
    | [] => .error "Unexpected end of JSON input"
  | c :: rest =>
    if c.toNat < 32 then .error "Bad control character in JSON string"
    else scanString (c :: acc) rest

/-- Fraction digits of a JSON number, if a fraction part is present. -/
def scanFrac : List Char → Except String (List Char × List Char)
  | '.' :: rest =>
    match takeDigits rest with
    | ([], _) => .error "Unexpected token"
    | (ds, r) => .ok (ds, r)
  | input => .ok ([], input)

/-- Exponent of a JSON number, if an exponent part is present. -/
def scanExp : List Char → Except String (Int × List Char)
  | c :: rest =>
    if c = 'e' || c = 'E' then
      let p : Int × List Char :=
        match rest with
        | '+' :: r => (1, r)
        | '-' :: r => (-1, r)
        | r => (1, r)
      match takeDigits p.2 with
      | ([], _) => .error "Unexpected token"
      | (ds, r) => .ok (p.1 * (digitsToNat ds : Int), r)
    else .ok (0, c :: rest)
  | [] => .ok (0, [])

/-- Modelled from the spec (4.1): the host scanner for a JSON number,
following the JSON number grammar, yielding an exact rational. -/
def scanNumber (input : List Char) : Except String (Rat × List Char) :=
  let p : Bool × List Char :=
    match input with
    | '-' :: rest => (true, rest)
    | _ => (false, input)
  match takeDigits p.2 with
  | ([], _) => .error "Unexpected token"
  | (intDs, afterInt) =>
    if 1 < intDs.length && intDs.headD '0' = '0' then .error "Unexpected number"
    else
      match scanFrac afterInt with
      | .error e => .error e
      | .ok (fracDs, afterFrac) =>
        match scanExp afterFrac with
        | .error e => .error e
        | .ok (ex, rest) =>
          let mag : Int := (digitsToNat intDs * 10 ^ fracDs.length + digitsToNat fracDs : Nat)
          let mantissa : Int := if p.1 then -mag else mag
          let scale : Int := ex - fracDs.length
          .ok (mkRat (mantissa * (10 : Int) ^ scale.toNat) (10 ^ (-scale).toNat), rest)

/-- Replace-or-append entry update, mirroring JS property assignment:
a repeated key overwrites the value in place, keeping first position. -/
def objInsert : JsonObj → String → JsonValue → JsonObj
  | .nil, k, v => .cons k v .nil
  | .cons k0 v0 tl, k, v =>
    if k0 = k then .cons k0 v tl else .cons k0 v0 (objInsert tl k v)

mutual
/-- Modelled from the spec (4.1): the host JSON value parser. The fuel
argument only bounds nesting; parseJSON supplies more fuel than the input
length, so it never runs out on real input. -/
def scanValue : Nat → List Char → Except String (JsonValue × List Char)
  | 0, _ => .error "Nesting too deep"
  | fuel + 1, input =>
    match skipWs input with
    | [] => .error "Unexpected end of JSON input"
    | 'n' :: 'u' :: 'l' :: 'l' :: rest => .ok (.null, rest)
    | 't' :: 'r' :: 'u' :: 'e' :: rest => .ok (.bool true, rest)
    | 'f' :: 'a' :: 'l' :: 's' :: 'e' :: rest => .ok (.bool false, rest)
    | '"' :: rest =>
      match scanString [] rest with
      | .error e => .error e
      | .ok (cs, rest2) => .ok (.str (String.mk cs), rest2)
    | '[' :: rest =>
      (match skipWs rest with
       | ']' :: rest2 => .ok (.arr .nil, rest2)
       | s =>
         match scanArrElems fuel s with
         | .error e => .error e
         | .ok (xs, rest2) => .ok (.arr xs, rest2))
    | '\x7b' :: rest =>
      (match skipWs rest with
       | '\x7d' :: rest2 => .ok (.obj .nil, rest2)
       | s =>
         match scanObjMembers fuel s .nil with
         | .error e => .error e
         | .ok (es, rest2) => .ok (.obj es, rest2))
    | c :: rest =>
      if c = '-' || isDigitC c then
        match scanNumber (c :: rest) with
        | .error e => .error e
        | .ok (q, rest2) => .ok (.num q, rest2)
      else .error "Unexpected token"

/-- Elements of a non-empty JSON array, up to and including the closing
bracket. -/
def scanArrElems : Nat → List Char → Except String (JsonArr × List Char)
  | 0, _ => .error "Nesting too deep"
  | fuel + 1, input =>
    match scanValue fuel input with
    | .error e => .error e
    | .ok (v, rest) =>
      match skipWs rest with
      | ',' :: rest2 =>
        match scanArrElems fuel rest2 with
        | .error e => .error e
        | .ok (xs, rest3) => .ok (.cons v xs, rest3)
      | ']' :: rest2 => .ok (.cons v .nil, rest2)
      | _ => .error "Expected comma or closing bracket in JSON array"

/-- Members of a non-empty JSON object, up to and including the closing
brace, accumulating entries with overwrite-on-repeat semantics. -/
def scanObjMembers : Nat → List Char → JsonObj → Except String (JsonObj × List Char)
  | 0, _, _ => .error "Nesting too deep"
  | fuel + 1, input, acc =>
    match skipWs input with
    | '"' :: rest =>
      (match scanString [] rest with
       | .error e => .error e
       | .ok (kcs, rest2) =>
         match skipWs rest2 with
         | ':' :: rest3 =>
           (match scanValue fuel rest3 with
            | .error e => .error e
            | .ok (v, rest4) =>
              match skipWs rest4 with
              | ',' :: rest5 => scanObjMembers fuel rest5 (objInsert acc (String.mk kcs) v)
              | '\x7d' :: rest5 => .ok (objInsert acc (String.mk kcs) v, rest5)
              | _ => .error "Expected comma or closing brace in JSON object")
         | _ => .error "Expected colon in JSON object")
    | _ => .error "Expected string key in JSON object"
end

/-- Modelled from the spec (4.1): JSON.parse of the host runtime.
Succeeds exactly on well-formed JSON texts; the message on failure models
the host parser's error message. -/
def parseJSON (s : String) : Except String JsonValue :=
  match scanValue (s.length + 1) s.toList with
  | .error e => .error e
  | .ok (v, rest) =>
    match skipWs rest with
    | [] => .ok v
    | _ :: _ => .error "Unexpected non-whitespace character after JSON"

/-! ### The host JSON rendering (JSON.stringify)

The flattener renders values into displayText via the host's
JSON.stringify; modelled here. -/

/-- Lowercase hexadecimal digit. -/
def hexDigit (n : Nat) : Char :=
  if n < 10 then Char.ofNat ('0'.toNat + n) else Char.ofNat ('a'.toNat + n - 10)

/-- JSON string escaping of one character. -/
def escapeJsonChar (c : Char) : List Char :=
  if c = '"' then ['\\', '"']
  else if c = '\\' then ['\\', '\\']
  else if c = '\n' then ['\\', 'n']
  else if c = '\r' then ['\\', 'r']
  else if c = '\t' then ['\\', 't']
  else if c.toNat = 8 then ['\\', 'b']
  else if c.toNat = 12 then ['\\', 'f']
  else if c.toNat < 32 then ['\\', 'u', '0', '0', hexDigit (c.toNat / 16), hexDigit (c.toNat % 16)]
  else [c]

/-- A JSON string literal for a string value. -/
def quoteJsonString (s : String) : String :=
  String.mk ('"' :: s.toList.foldr (fun c acc => escapeJsonChar c ++ acc) ['"'])

/-- Decimal expansion digits of a proper fraction r / den, with fuel.
Exact for the decimal fractions the JSON parser produces. -/
def fracDigitChars : Nat → Nat → Nat → List Char
  | 0, _, _ => []
  | fuel + 1, r, den =>
    if r = 0 then []
    else Char.ofNat ('0'.toNat + r * 10 / den) :: fracDigitChars fuel (r * 10 % den) den

/-- Modelled from the host's number-to-string rendering; exact for
numbers with a finite decimal expansion, which covers everything the
JSON parser produces. -/
def ratToString (q : Rat) : String :=
  if q.den = 1 then toString q.num
  else
    (if q.num < 0 then "-" else "") ++ toString (q.num.natAbs / q.den) ++ "." ++
      String.mk (fracDigitChars 40 (q.num.natAbs % q.den) q.den)

mutual
/-- Modelled from the spec: the host JSON rendering (JSON.stringify),
used by the flattener to build displayText. -/
def stringifyJSON : JsonValue → String
  | .null => "null"
  | .bool true => "true"
  | .bool false => "false"
  | .num q => ratToString q
  | .str s => quoteJsonString s
  | .arr xs => "[" ++ stringifyArr xs ++ "]"
  | .obj es => "\x7b" ++ stringifyObj es ++ "\x7d"

/-- Comma-separated rendering of array elements. -/
def stringifyArr : JsonArr → String
  | .nil => ""
  | .cons x .nil => stringifyJSON x
  | .cons x tl => stringifyJSON x ++ "," ++ stringifyArr tl

/-- Comma-separated rendering of object members. -/
def stringifyObj : JsonObj → String
  | .nil => ""
  | .cons k v .nil => quoteJsonString k ++ ":" ++ stringifyJSON v
  | .cons k v tl => quoteJsonString k ++ ":" ++ stringifyJSON v ++ "," ++ stringifyObj tl
end

/-! ### The structural delta engine (spec 4.2)

jsonDiff.ts calls the external jsondiffpatch diff; modelled from the
spec's contract: depth-first recursion, no delta for equal values,
2-element replace for differing scalars or type changes, per-key object
entries (addition as a 1-element sequence, deletion as a 3-element
sequence ending in two zero sentinels, recursion for keys on both
sides), and index-aligned arrays marked with the array sentinel key. -/

/-- Delta leaf for an addition. -/
def dAdd (v : JsonValue) : JsonValue := .arr (.cons v .nil)

/-- Delta leaf for a modification (replace). -/
def dMod (o n : JsonValue) : JsonValue := .arr (.cons o (.cons n .nil))

/-- Delta leaf for a deletion. -/
def dDel (o : JsonValue) : JsonValue :=
  .arr (.cons o (.cons (.num 0) (.cons (.num 0) .nil)))

/-- Addition entries: keys of the second object absent from the first. -/
def objAdditions (ea : JsonObj) : JsonObj → JsonObj
  | .nil => .nil
  | .cons k v tl =>
    if hasKeyO ea k then objAdditions ea tl
    else .cons k (dAdd v) (objAdditions ea tl)

/-- Addition entries for array elements from an index on. -/
def arrAdditions : Nat → JsonArr → JsonObj
  | _, .nil => .nil
  | i, .cons v tl => .cons (toString i) (dAdd v) (arrAdditions (i + 1) tl)

mutual
/-- Modelled from the spec (4.2): the structural delta engine (the
jsondiffpatch diff call). Returns none when there is no difference. -/
def jdpDiff : JsonValue → JsonValue → Option JsonValue
  | .obj ea, .obj eb =>
    (match appendO (jdpDiffObjChanged ea eb) (objAdditions ea eb) with
     | .nil => none
     | es => some (.obj es))
  | .arr xa, .arr xb =>
    (match jdpDiffArr 0 xa xb with
     | .nil => none
     | es => some (.obj (.cons "_t" (.str "a") es)))
  | a, b => if jeq a b then none else some (dMod a b)

/-- Deletion, modification and nested entries for the keys of the first
object, per the spec's object rule (4.2). -/
def jdpDiffObjChanged : JsonObj → JsonObj → JsonObj
  | .nil, _ => .nil
  | .cons k v tl, eb =>
    match objLookup eb k with
    | none => .cons k (dDel v) (jdpDiffObjChanged tl eb)
    | some v2 =>
      match jdpDiff v v2 with
      | none => jdpDiffObjChanged tl eb
      | some d => .cons k d (jdpDiffObjChanged tl eb)

/-- Index-aligned array delta entries, per the spec's array rule (4.2). -/
def jdpDiffArr : Nat → JsonArr → JsonArr → JsonObj
  | i, .nil, xb => arrAdditions i xb
  | i, .cons x tl, .nil => .cons (toString i) (dDel x) (jdpDiffArr (i + 1) tl .nil)
  | i, .cons x tl, .cons y tl2 =>
    match jdpDiff x y with
    | none => jdpDiffArr (i + 1) tl tl2
    | some d => .cons (toString i) d (jdpDiffArr (i + 1) tl tl2)
end

/-! ### Diff types (DiffTypes.ts) -/

/-- DiffChangeType from DiffTypes.ts. -/
inductive DiffChangeType where
  | addition
  | deletion
  | modification
deriving DecidableEq

/-- DiffLineNumber from DiffTypes.ts. -/
structure DiffLineNumber where
  original : Option Nat := none
  modified : Option Nat := none
deriving DecidableEq

/-- DiffChange from DiffTypes.ts. The optional context field is never
set by the diff service and is omitted. -/
structure DiffChange where
  id : String
  type : DiffChangeType
  keyPath : String
  originalValue : Option JsonValue := none
  modifiedValue : Option JsonValue := none
  lineNumber : DiffLineNumber
  displayText : String

/-- DiffSummary from DiffTypes.ts. -/
structure DiffSummary where
  totalChanges : Nat
  additionCount : Nat
  deletionCount : Nat
  modificationCount : Nat
  unchangedKeys : Option Nat := none
deriving DecidableEq

/-- EMPTY_DIFF_SUMMARY from DiffTypes.ts. -/
def EMPTY_DIFF_SUMMARY : DiffSummary :=
  { totalChanges := 0, additionCount := 0, deletionCount := 0,
    modificationCount := 0, unchangedKeys := some 0 }

/-- DiffOptions from DiffTypes.ts. -/
structure DiffOptions where
  ignoreWhitespace : Bool
  ignoreArrayOrder : Bool
  ignoreCase : Bool
  maxDifferences : Nat
  formatBeforeDiff : Bool
deriving DecidableEq

/-- DEFAULT_DIFF_OPTIONS from DiffTypes.ts. -/
def DEFAULT_DIFF_OPTIONS : DiffOptions :=
  { ignoreWhitespace := false, ignoreArrayOrder := false, ignoreCase := false,
    maxDifferences := 500, formatBeforeDiff := true }

/-- The TS Partial of DiffOptions accepted by calculateDiffSync: every
field optional. -/
structure DiffOptionsInput where
  ignoreWhitespace : Option Bool := none
  ignoreArrayOrder : Option Bool := none
  ignoreCase : Option Bool := none
  maxDifferences : Option Nat := none
  formatBeforeDiff : Option Bool := none

/-- The object-spread merge of DEFAULT_DIFF_OPTIONS with the caller's
options, as performed at the top of calculateDiffSync. -/
def mergeOptions (o : DiffOptionsInput) : DiffOptions :=
  { ignoreWhitespace := o.ignoreWhitespace.getD DEFAULT_DIFF_OPTIONS.ignoreWhitespace,
    ignoreArrayOrder := o.ignoreArrayOrder.getD DEFAULT_DIFF_OPTIONS.ignoreArrayOrder,
    ignoreCase := o.ignoreCase.getD DEFAULT_DIFF_OPTIONS.ignoreCase,
    maxDifferences := o.maxDifferences.getD DEFAULT_DIFF_OPTIONS.maxDifferences,
    formatBeforeDiff := o.formatBeforeDiff.getD DEFAULT_DIFF_OPTIONS.formatBeforeDiff }

/-- DiffErrorCode from DiffTypes.ts. -/
inductive DiffErrorCode where
  | PARSE_ERROR_ORIGINAL
  | PARSE_ERROR_MODIFIED
  | CALCULATION_ERROR
  | TIMEOUT
deriving DecidableEq

/-- DiffError from DiffTypes.ts; the wall-clock timestamp field is not
modelled, no verified property depends on it. -/
structure DiffError where
  code : DiffErrorCode
  message : String
deriving DecidableEq

/-- DiffStatus from DiffTypes.ts. -/
inductive DiffStatus where
  | idle
  | calculating
  | completed
  | error
deriving DecidableEq

/-- DiffComparison from DiffTypes.ts. The id, createdAt and
calculationTime fields are clock-derived and not modelled; no verified
property depends on them. -/
structure DiffComparison where
  originalJSON : String
  modifiedJSON : String
  originalParsed : Option JsonValue := none
  modifiedParsed : Option JsonValue := none
  delta : Option JsonValue := none
  differences : List DiffChange
  summary : DiffSummary
  options : DiffOptions
  status : DiffStatus
  error : Option DiffError

/-! ### The delta flattener (parseDeltaToDiffChanges in jsonDiff.ts) -/

/-- Index/element entry list a JS for..in loop sees on an array. -/
def idxEntries : Nat → JsonArr → JsonObj
  | _, .nil => .nil
  | i, .cons v tl => .cons (toString i) v (idxEntries (i + 1) tl)

/-- The enumerable entries a JS for..in loop sees on a value: an
object's entries, an array's index/element pairs, nothing on scalars. -/
def nodeEntries : JsonValue → JsonObj
  | .obj es => es
  | .arr xs => idxEntries 0 xs
  | _ => .nil

/-- A string of decimal digits read as an array index, if it is one. -/
def parseIndex (s : String) : Option Nat :=
  if s.toList ≠ [] && s.toList.all isDigitC then some (digitsToNat s.toList) else none

/-- JS optional member access origNode?.[key], as used by the flattener
to find the child nodes passed to its recursive call. -/
def childOf : Option JsonValue → String → Option JsonValue
  | some (.obj es), k => objLookup es k
  | some (.arr xs), k =>
    (match parseIndex k with
     | some i => arrGet xs i
     | none => none)
  | _, _ => none

/-- The change pushed for a 1-element delta entry, mirroring the first
push site of the flattener. -/
def mkAdditionChange (count : Nat) (keyPath : String) (nv : JsonValue) (line : Nat) : DiffChange :=
  { id := "diff-" ++ toString count, type := .addition, keyPath := keyPath,
    modifiedValue := some nv,
    lineNumber := { modified := some line },
    displayText := keyPath ++ ": " ++ stringifyJSON nv ++ " (新增)" }

/-- The change pushed for a 2-element delta entry, mirroring the second
push site of the flattener. -/
def mkModificationChange (count : Nat) (keyPath : String) (ov nv : JsonValue) (line : Nat) :
    DiffChange :=
  { id := "diff-" ++ toString count, type := .modification, keyPath := keyPath,
    originalValue := some ov, modifiedValue := some nv,
    lineNumber := { original := some line, modified := some line },
    displayText := keyPath ++ ": " ++ stringifyJSON ov ++ " → " ++ stringifyJSON nv }

/-- The change pushed for a 3-element delta entry ending in the zero
sentinel, mirroring the third push site of the flattener. -/
def mkDeletionChange (count : Nat) (keyPath : String) (ov : JsonValue) (line : Nat) : DiffChange :=
  { id := "diff-" ++ toString count, type := .deletion, keyPath := keyPath,
    originalValue := some ov,
    lineNumber := { original := some line },
    displayText := keyPath ++ ": " ++ stringifyJSON ov ++ " (刪除)" }

/-- The recursive walk of the flattener (the traverse closure inside
parseDeltaToDiffChanges). Arguments: the entry list the JS for..in loop
iterates, the original and modified nodes (only consulted to find the
children handed to the nested call, exactly as in the source), the
accumulated path, the running line counter, and the running emission
count (the source reads changes.length for the id). Returns the emitted
changes in emission order with the updated counters; the source pushes
into one shared array, which concatenates the same way. -/
def traverseDelta : JsonObj → Option JsonValue → Option JsonValue → List String → Nat → Nat →
    List DiffChange × Nat × Nat
  | .nil, _, _, _, line, count => ([], line, count)
  | .cons k v rest, orig, modi, path, line, count =>
    if k = "_t" then traverseDelta rest orig modi path line count
    else
      let keyPath := String.intercalate "." (path ++ [k])
      match v with
      | .arr (.cons nv .nil) =>
        let r := traverseDelta rest orig modi path (line + 1) (count + 1)
        (mkAdditionChange count keyPath nv line :: r.1, r.2.1, r.2.2)
      | .arr (.cons ov (.cons nv .nil)) =>
        let r := traverseDelta rest orig modi path (line + 1) (count + 1)
        (mkModificationChange count keyPath ov nv line :: r.1, r.2.1, r.2.2)
      | .arr (.cons ov (.cons _ (.cons z .nil))) =>
        if jeq z (.num 0) then
          let r := traverseDelta rest orig modi path (line + 1) (count + 1)
          (mkDeletionChange count keyPath ov line :: r.1, r.2.1, r.2.2)
        else traverseDelta rest orig modi path line count
      | .obj es =>
        let r1 := traverseDelta es (childOf orig k) (childOf modi k) (path ++ [k]) line count
        let r2 := traverseDelta rest orig modi path r1.2.1 r1.2.2
        (r1.1 ++ r2.1, r2.2.1, r2.2.2)
      | _ => traverseDelta rest orig modi path line count

/-- parseDeltaToDiffChanges from jsonDiff.ts. A JS-falsy delta (null or
undefined, modelled as none) yields the empty list. -/
def parseDeltaToDiffChanges (delta : Option JsonValue) (original modified : Option JsonValue) :
    List DiffChange :=
  match delta with
  | none => []
  | some d => (traverseDelta (nodeEntries d) original modified [] 1 0).1

/-- calculateSummary from jsonDiff.ts. -/
def calculateSummary (differences : List DiffChange) : DiffSummary :=
  { totalChanges := differences.length,
    additionCount := (differences.filter (fun d => d.type == .addition)).length,
    deletionCount := (differences.filter (fun d => d.type == .deletion)).length,
    modificationCount := (differences.filter (fun d => d.type == .modification)).length }

/-! ### The comparison orchestrator (validateJSON and calculateDiffSync) -/

/-- ValidationResult from jsonDiff.ts. -/
structure ValidationResult where
  isValid : Bool
  parsed : Option JsonValue := none
  error : Option String := none

/-- validateJSON from jsonDiff.ts: wraps the host parse, never throws. -/
def validateJSON (jsonString : String) : ValidationResult :=
  match parseJSON jsonString with
  | .ok parsed => { isValid := true, parsed := some parsed }
  | .error e => { isValid := false, error := some e }

/-- JS string-or-default, modelling the source's reading of
validation.error with an Invalid JSON fallback through the JS or
operator, under which an empty string is falsy. -/
def jsStrOr (s : Option String) (d : String) : String :=
  match s with
  | some v => if v = "" then d else v
  | none => d

/-- calculateDiffSync from jsonDiff.ts. The source branches on
isValid; validateJSON sets isValid true exactly when it sets parsed, so
the branch is taken here on the parsed field, which also names the
parsed value. Timing and clock fields are not modelled. -/
def calculateDiffSync (originalJSON modifiedJSON : String) (options : DiffOptionsInput) :
    DiffComparison :=
  let mergedOptions := mergeOptions options
  let originalValidation := validateJSON originalJSON
  match originalValidation.parsed with
  | none =>
    { originalJSON := originalJSON, modifiedJSON := modifiedJSON,
      differences := [], summary := EMPTY_DIFF_SUMMARY, options := mergedOptions,
      status := .error,
      error := some { code := .PARSE_ERROR_ORIGINAL,
                      message := jsStrOr originalValidation.error "Invalid JSON" } }
  | some originalParsed =>
    let modifiedValidation := validateJSON modifiedJSON
    match modifiedValidation.parsed with
    | none =>
      { originalJSON := originalJSON, modifiedJSON := modifiedJSON,
        differences := [], summary := EMPTY_DIFF_SUMMARY, options := mergedOptions,
        status := .error,
        error := some { code := .PARSE_ERROR_MODIFIED,
                        message := jsStrOr modifiedValidation.error "Invalid JSON" } }
    | some modifiedParsed =>
      let delta := jdpDiff originalParsed modifiedParsed
      let differences :=
        parseDeltaToDiffChanges (some (delta.getD (.obj .nil)))
          (some originalParsed) (some modifiedParsed)
      { originalJSON := originalJSON, modifiedJSON := modifiedJSON,
        originalParsed := some originalParsed, modifiedParsed := some modifiedParsed,
        delta := delta, differences := differences,
        summary := calculateSummary differences, options := mergedOptions,
        status := .completed, error := none }

/-! ### The character-level diff engine (spec 4.5)

jsonDiff.ts calls the external diffChars; modelled from the spec's
contract: a minimal insert/delete edit script at character granularity,
re-expressed as maximal runs of equal, removed and added characters. -/

/-- One primitive edit: keep a character of both texts, drop a character
of the original, or insert a character of the modified text. -/
inductive EditOp where
  | keep (c : Char)
  | drop (c : Char)
  | ins (c : Char)
deriving DecidableEq

/-- The character an edit touches. -/
def EditOp.char : EditOp → Char
  | .keep c => c
  | .drop c => c
  | .ins c => c

/-- The (added, removed) flags of an edit. -/
def EditOp.kind : EditOp → Bool × Bool
  | .keep _ => (false, false)
  | .drop _ => (false, true)
  | .ins _ => (true, false)

/-- Number of non-keep edits in a script. -/
def editCost (ops : List EditOp) : Nat :=
  (ops.filter (fun op => op.kind ≠ (false, false))).length

/-- Modelled from the spec (4.5): a minimal-edit-distance character
script, with fuel for termination; matching characters are always kept,
and on a mismatch the cheaper of dropping or inserting is taken,
dropping first on ties. -/
def editOpsF : Nat → List Char → List Char → List EditOp
  | 0, _, _ => []
  | _ + 1, [], ys => ys.map .ins
  | fuel + 1, x :: xs, [] => .drop x :: editOpsF fuel xs []
  | fuel + 1, x :: xs, y :: ys =>
    if x = y then .keep x :: editOpsF fuel xs ys
    else
      let viaDrop := .drop x :: editOpsF fuel xs (y :: ys)
      let viaIns := .ins y :: editOpsF fuel (x :: xs) ys
      if editCost viaDrop ≤ editCost viaIns then viaDrop else viaIns

/-- The character edit script between two texts. -/
def editOps (xs ys : List Char) : List EditOp :=
  editOpsF (xs.length + ys.length + 1) xs ys

/-- The change-run record of the external diff library: a run of
characters marked as added, removed, or common. -/
structure Change where
  value : String
  added : Bool := false
  removed : Bool := false
deriving DecidableEq

/-- Grouping of an edit script into maximal same-kind runs. -/
def groupOps : List EditOp → List Change
  | [] => []
  | op :: rest =>
    match groupOps rest with
    | [] => [{ value := String.mk [op.char], added := op.kind.1, removed := op.kind.2 }]
    | c :: cs =>
      if (c.added, c.removed) = op.kind then
        { value := String.mk (op.char :: c.value.toList), added := c.added,
          removed := c.removed } :: cs
      else
        { value := String.mk [op.char], added := op.kind.1, removed := op.kind.2 } :: c :: cs

/-- Modelled from the spec (4.5): the external character diff, producing
equal, removed and added runs whose non-removed runs concatenate to the
modified text and whose non-added runs concatenate to the original. -/
def diffChars (originalText modifiedText : String) : List Change :=
  groupOps (editOps originalText.toList modifiedText.toList)

/-- CharChange type values from the diff types module. -/
inductive CharChangeType where
  | add
  | remove
  | equal
deriving DecidableEq

/-- CharChange from the diff types module. -/
structure CharChange where
  type : CharChangeType
  value : String
  startIndex : Int
  length : Nat
deriving DecidableEq

/-- convertToCharChange from jsonDiff.ts. -/
def convertToCharChange (change : Change) (startIndex : Int) : CharChange :=
  { type := if change.added then .add else if change.removed then .remove else .equal,
    value := change.value,
    startIndex := if change.added then -1 else startIndex,
    length := change.value.length }

/-- The conversion loop of calculateCharLevelDiff: convert each run,
advancing the original-text index only past non-added runs. -/
def charLoop : List Change → Int → List CharChange
  | [], _ => []
  | change :: rest, currentIndex =>
    convertToCharChange change currentIndex ::
      charLoop rest (if !change.added then currentIndex + change.value.length else currentIndex)

/-- calculateCharLevelDiff from jsonDiff.ts. -/
def calculateCharLevelDiff (originalText modifiedText : String) : List CharChange :=
  charLoop (diffChars originalText modifiedText) 0

/-! ### The patch export (diffExport.ts) -/

/-- JSONPatchOperation from diffExport.ts; the op field carries one of
the six RFC 6902 operation names. The TS field named from is modelled
as fromPath, from being reserved in Lean. -/
structure JSONPatchOperation where
  op : String
  path : String
  value : Option JsonValue := none
  fromPath : Option String := none

/-- RFC 6901 escaping of one path segment. -/
def escapePointerSeg (s : String) : String :=
  String.mk (s.toList.foldr
    (fun c acc =>
      if c = '~' then '~' :: '0' :: acc
      else if c = '/' then '~' :: '1' :: acc
      else c :: acc) [])

/-- Addition operations for object keys only present on the new side. -/
def fjpObjNew (path : String) (ea : JsonObj) : JsonObj → List JSONPatchOperation
  | .nil => []
  | .cons k v tl =>
    (if hasKeyO ea k then []
     else [{ op := "add", path := path ++ "/" ++ escapePointerSeg k, value := some v }]) ++
      fjpObjNew path ea tl

mutual
/-- Modelled from the spec (4.6): a standard RFC 6902 patch generator
(the fast-json-patch compare call): replace for differing leaves,
remove and add for object keys present on one side, index-aligned
recursion for arrays. -/
def fjpCompare (path : String) : JsonValue → JsonValue → List JSONPatchOperation
  | .obj ea, .obj eb => fjpObjOld path ea eb ++ fjpObjNew path ea eb
  | .arr xa, .arr xb => fjpArr path 0 xa xb
  | a, b => if jeq a b then [] else [{ op := "replace", path := path, value := some b }]

/-- Walk of the old object's keys: removals and recursions. -/
def fjpObjOld (path : String) : JsonObj → JsonObj → List JSONPatchOperation
  | .nil, _ => []
  | .cons k v tl, eb =>
    (match objLookup eb k with
     | none => [{ op := "remove", path := path ++ "/" ++ escapePointerSeg k }]
     | some v2 => fjpCompare (path ++ "/" ++ escapePointerSeg k) v v2) ++
      fjpObjOld path tl eb

/-- Index-aligned walk of two arrays. -/
def fjpArr (path : String) : Nat → JsonArr → JsonArr → List JSONPatchOperation
  | _, .nil, .nil => []
  | i, .nil, .cons y tl =>
    { op := "add", path := path ++ "/" ++ toString i, value := some y } :: fjpArr path (i + 1) .nil tl
  | i, .cons _ tl, .nil =>
    { op := "remove", path := path ++ "/" ++ toString i } :: fjpArr path (i + 1) tl .nil
  | i, .cons x tl, .cons y tl2 =>
    fjpCompare (path ++ "/" ++ toString i) x y ++ fjpArr path (i + 1) tl tl2
end

/-- The JS truthiness test the export applies to the possibly absent
parsed fields: undefined, null, false, zero and the empty string are
falsy. -/
def jsFalsy : Option JsonValue → Bool
  | none => true
  | some .null => true
  | some (.bool b) => !b
  | some (.num q) => q == 0
  | some (.str s) => s == ""
  | some (.arr _) => false
  | some (.obj _) => false

/-- generateJSONPatch from diffExport.ts: empty when either parsed field
is JS-falsy, otherwise the compare of the two parsed values. -/
def generateJSONPatch (comparison : DiffComparison) : List JSONPatchOperation :=
  if jsFalsy comparison.originalParsed || jsFalsy comparison.modifiedParsed then []
  else
    match comparison.originalParsed, comparison.modifiedParsed with
    | some a, some b => fjpCompare "" a b
    | _, _ => []

/-! ### Infrastructure for the verification: sizes, counts, predicates -/

mutual
/-- Size of a JSON value, for strong-induction arguments. -/
def sizeJ : JsonValue → Nat
  | .arr xs => 1 + sizeA xs
  | .obj es => 1 + sizeO es
  | _ => 1

/-- Size of an array. -/
def sizeA : JsonArr → Nat
  | .nil => 0
  | .cons x tl => 1 + sizeJ x + sizeA tl

/-- Size of an object. -/
def sizeO : JsonObj → Nat
  | .nil => 0
  | .cons _ v tl => 1 + sizeJ v + sizeO tl
end

/-- Triple of addition, deletion and modification counts. -/
structure Counts where
  adds : Nat
  dels : Nat
  mods : Nat
deriving DecidableEq

instance : Add Counts :=
  ⟨fun x y => ⟨x.adds + y.adds, x.dels + y.dels, x.mods + y.mods⟩⟩

/-- Counts with additions and deletions exchanged. -/
def Counts.swap (c : Counts) : Counts := ⟨c.dels, c.adds, c.mods⟩

mutual
/-- The counts the flattener emits for one delta entry value: one
addition for a 1-element sequence, one modification for a 2-element
sequence, one deletion for a 3-element sequence ending in the zero
sentinel, the recursive counts for a nested object, nothing otherwise. -/
def entryCounts : JsonValue → Counts
  | .arr (.cons _ .nil) => ⟨1, 0, 0⟩
  | .arr (.cons _ (.cons _ .nil)) => ⟨0, 0, 1⟩
  | .arr (.cons _ (.cons _ (.cons z .nil))) => if jeq z (.num 0) then ⟨0, 1, 0⟩ else ⟨0, 0, 0⟩
  | .obj es => objCounts es
  | _ => ⟨0, 0, 0⟩

/-- Total counts over a delta node's entries, skipping the array
sentinel key exactly as the flattener does. -/
def objCounts : JsonObj → Counts
  | .nil => ⟨0, 0, 0⟩
  | .cons k v tl => (if k = "_t" then ⟨0, 0, 0⟩ else entryCounts v) + objCounts tl
end

/-- Counts of an optional delta. -/
def diffCountsOpt : Option JsonValue → Counts
  | none => ⟨0, 0, 0⟩
  | some d => entryCounts d

/-- Counts read off a flattened change list, with the same filters
calculateSummary applies. -/
def changesCounts (l : List DiffChange) : Counts :=
  ⟨(l.filter (fun d => d.type == DiffChangeType.addition)).length,
   (l.filter (fun d => d.type == DiffChangeType.deletion)).length,
   (l.filter (fun d => d.type == DiffChangeType.modification)).length⟩

/-- The weight one change contributes to the counts. -/
def typeWeight : DiffChangeType → Counts
  | .addition => ⟨1, 0, 0⟩
  | .deletion => ⟨0, 1, 0⟩
  | .modification => ⟨0, 0, 1⟩

/-- Whether a value is an object. -/
def isObjV : JsonValue → Bool
  | .obj _ => true
  | _ => false

/-- Whether a value is an array. -/
def isArrV : JsonValue → Bool
  | .arr _ => true
  | _ => false

/-- Whether two values are both objects, both arrays, or both
scalars. -/
def sameTopKind (a b : JsonValue) : Bool :=
  (isObjV a == isObjV b) && (isArrV a == isArrV b)

/-- Entry membership in an object. -/
def entryMemO (k : String) (v : JsonValue) : JsonObj → Prop
  | .nil => False
  | .cons k2 v2 tl => (k = k2 ∧ v = v2) ∨ entryMemO k v tl

/-- Element membership in an array. -/
def memA (v : JsonValue) : JsonArr → Prop
  | .nil => False
  | .cons x tl => v = x ∨ memA v tl


/-- Characters of the edits whose kind a predicate keeps. -/
def opsKept (p : Bool × Bool → Bool) (ops : List EditOp) : List Char :=
  ops.foldr (fun op acc => if p op.kind then op.char :: acc else acc) []

/-- Characters of the change runs whose kind a predicate keeps. -/
def changesKept (p : Bool × Bool → Bool) (cs : List Change) : List Char :=
  cs.foldr (fun c acc => if p (c.added, c.removed) then c.value.toList ++ acc else acc) []

/-- The counts the changed-keys walk contributes for one key of the
first object: a deletion when the key is absent from the second object,
else the counts of the nested delta of the two values. -/
def dcHead (k : String) (v : JsonValue) (eb : JsonObj) : Counts :=
  match objLookup eb k with
  | none => ⟨0, 1, 0⟩
  | some v2 => diffCountsOpt (jdpDiff v v2)

/-- The counts the reverse-direction changed-keys walk contributes at
one key: nothing when the key is absent from the other object (the
reverse walk then never reaches it), else the counts of the nested
delta taken with the sides exchanged. -/
def dcHeadRev (k : String) (v : JsonValue) (eb : JsonObj) : Counts :=
  match objLookup eb k with
  | none => ⟨0, 0, 0⟩
  | some v2 => diffCountsOpt (jdpDiff v2 v)

/-! ## Verification -/

theorem validateJSON_ok (s : String) (v : JsonValue) (h : parseJSON s = .ok v) :
    validateJSON s = { isValid := true, parsed := some v } := by
  simp [validateJSON, h]

theorem validateJSON_err (s : String) (e : String) (h : parseJSON s = .error e) :
    validateJSON s = { isValid := false, error := some e } := by
  simp [validateJSON, h]

theorem calculateDiffSync_ok_ok (a b : String) (opts : DiffOptionsInput) (va vb : JsonValue)
    (ha : parseJSON a = .ok va) (hb : parseJSON b = .ok vb) :
    calculateDiffSync a b opts =
      { originalJSON := a, modifiedJSON := b, originalParsed := some va,
        modifiedParsed := some vb, delta := jdpDiff va vb,
        differences :=
          parseDeltaToDiffChanges (some ((jdpDiff va vb).getD (.obj .nil))) (some va) (some vb),
        summary :=
          calculateSummary
            (parseDeltaToDiffChanges (some ((jdpDiff va vb).getD (.obj .nil))) (some va) (some vb)),
        options := mergeOptions opts, status := .completed, error := none } := by
  simp [calculateDiffSync, validateJSON_ok a va ha, validateJSON_ok b vb hb]

theorem calculateDiffSync_err_orig (a b : String) (opts : DiffOptionsInput) (e : String)
    (ha : parseJSON a = .error e) :
    calculateDiffSync a b opts =
      { originalJSON := a, modifiedJSON := b,
        differences := [], summary := EMPTY_DIFF_SUMMARY, options := mergeOptions opts,
        status := .error,
        error := some { code := .PARSE_ERROR_ORIGINAL,
                        message := jsStrOr (some e) "Invalid JSON" } } := by
  simp [calculateDiffSync, validateJSON_err a e ha]

theorem calculateDiffSync_err_mod (a b : String) (opts : DiffOptionsInput) (va : JsonValue)
    (e : String) (ha : parseJSON a = .ok va) (hb : parseJSON b = .error e) :
    calculateDiffSync a b opts =
      { originalJSON := a, modifiedJSON := b,
        differences := [], summary := EMPTY_DIFF_SUMMARY, options := mergeOptions opts,
        status := .error,
        error := some { code := .PARSE_ERROR_MODIFIED,
                        message := jsStrOr (some e) "Invalid JSON" } } := by
  simp [calculateDiffSync, validateJSON_ok a va ha, validateJSON_err b e hb]

theorem calculateSummary_invariant_list (l : List DiffChange) :
    (calculateSummary l).totalChanges =
      (calculateSummary l).additionCount + (calculateSummary l).deletionCount +
        (calculateSummary l).modificationCount := by
  induction l with
  | nil => rfl
  | cons c tl ih =>
    simp only [calculateSummary, List.filter_cons, List.length_cons] at ih ⊢
    cases h : c.type
    all_goals simp
    all_goals omega

/-- C1: every Comparison calculateDiffSync returns, in the completed and
in the error state alike, has totalChanges equal to the sum of the
addition, deletion and modification counts. -/
theorem calculateDiffSync_summary_invariant (originalJSON modifiedJSON : String)
    (options : DiffOptionsInput) :
    (calculateDiffSync originalJSON modifiedJSON options).summary.totalChanges =
      (calculateDiffSync originalJSON modifiedJSON options).summary.additionCount +
        (calculateDiffSync originalJSON modifiedJSON options).summary.deletionCount +
        (calculateDiffSync originalJSON modifiedJSON options).summary.modificationCount := by
  cases ha : parseJSON originalJSON with
  | error e => rw [calculateDiffSync_err_orig originalJSON modifiedJSON options e ha]; rfl
  | ok va =>
    cases hb : parseJSON modifiedJSON with
    | error e => rw [calculateDiffSync_err_mod originalJSON modifiedJSON options va e ha hb]; rfl
    | ok vb =>
      rw [calculateDiffSync_ok_ok originalJSON modifiedJSON options va vb ha hb]
      exact calculateSummary_invariant_list _

/-- C9: no recognized option influences the computed delta, differences
or summary; two runs with any two options objects agree on all three,
options only being echoed back in the Comparison. -/
theorem calculateDiffSync_options_immaterial (a b : String) (o1 o2 : DiffOptionsInput) :
    (calculateDiffSync a b o1).delta = (calculateDiffSync a b o2).delta ∧
    (calculateDiffSync a b o1).differences = (calculateDiffSync a b o2).differences ∧
    (calculateDiffSync a b o1).summary = (calculateDiffSync a b o2).summary := by
  cases ha : parseJSON a with
  | error e =>
    rw [calculateDiffSync_err_orig a b o1 e ha, calculateDiffSync_err_orig a b o2 e ha]
    exact ⟨rfl, rfl, rfl⟩
  | ok va =>
    cases hb : parseJSON b with
    | error e =>
      rw [calculateDiffSync_err_mod a b o1 va e ha hb, calculateDiffSync_err_mod a b o2 va e ha hb]
      exact ⟨rfl, rfl, rfl⟩
    | ok vb =>
      rw [calculateDiffSync_ok_ok a b o1 va vb ha hb, calculateDiffSync_ok_ok a b o2 va vb ha hb]
      exact ⟨rfl, rfl, rfl⟩

/-- C2 counterexample: on two valid JSON texts producing two changes,
with maxDifferences set to 1, the flattened differences list has length
2, exceeding the limit: the option never truncates the list. -/
theorem maxDifferences_not_enforced_cex :
    (∃ v, parseJSON "\x7b\x7d" = Except.ok v) ∧
    (∃ v, parseJSON "\x7b\"x\":1,\"y\":2\x7d" = Except.ok v) ∧
    (calculateDiffSync "\x7b\x7d" "\x7b\"x\":1,\"y\":2\x7d"
        { maxDifferences := some 1 }).options.maxDifferences = 1 ∧
    (calculateDiffSync "\x7b\x7d" "\x7b\"x\":1,\"y\":2\x7d"
        { maxDifferences := some 1 }).differences.length = 2 ∧
    ¬ ((calculateDiffSync "\x7b\x7d" "\x7b\"x\":1,\"y\":2\x7d"
        { maxDifferences := some 1 }).differences.length ≤
       (calculateDiffSync "\x7b\x7d" "\x7b\"x\":1,\"y\":2\x7d"
        { maxDifferences := some 1 }).options.maxDifferences) :=
  ⟨⟨_, rfl⟩, ⟨_, rfl⟩, rfl, rfl, by decide⟩

/-- C2 amended: maxDifferences is never applied: the flattened
differences list of calculateDiffSync is identical whatever
maxDifferences is set to, and can therefore exceed it. -/
theorem calculateDiffSync_never_truncates (a b : String) (opts : DiffOptionsInput) (n : Nat) :
    (calculateDiffSync a b { opts with maxDifferences := some n }).differences =
      (calculateDiffSync a b opts).differences := by
  cases ha : parseJSON a with
  | error e =>
    rw [calculateDiffSync_err_orig a b _ e ha, calculateDiffSync_err_orig a b opts e ha]
  | ok va =>
    cases hb : parseJSON b with
    | error e =>
      rw [calculateDiffSync_err_mod a b _ va e ha hb, calculateDiffSync_err_mod a b opts va e ha hb]
    | ok vb =>
      rw [calculateDiffSync_ok_ok a b _ va vb ha hb, calculateDiffSync_ok_ok a b opts va vb ha hb]

/-- C3: when the original text fails to parse, calculateDiffSync
returns the error state with code PARSE_ERROR_ORIGINAL carrying the
parser's message verbatim, an empty differences list, the all-zero
summary, and no delta. -/
theorem calculateDiffSync_parse_error_original (originalJSON modifiedJSON : String)
    (options : DiffOptionsInput) (e : String)
    (he : parseJSON originalJSON = .error e) (hne : e ≠ "") :
    (calculateDiffSync originalJSON modifiedJSON options).status = .error ∧
    (calculateDiffSync originalJSON modifiedJSON options).error =
      some { code := .PARSE_ERROR_ORIGINAL, message := e } ∧
    (calculateDiffSync originalJSON modifiedJSON options).differences = [] ∧
    (calculateDiffSync originalJSON modifiedJSON options).summary.totalChanges = 0 ∧
    (calculateDiffSync originalJSON modifiedJSON options).summary.additionCount = 0 ∧
    (calculateDiffSync originalJSON modifiedJSON options).summary.deletionCount = 0 ∧
    (calculateDiffSync originalJSON modifiedJSON options).summary.modificationCount = 0 ∧
    (calculateDiffSync originalJSON modifiedJSON options).delta = none := by
  rw [calculateDiffSync_err_orig originalJSON modifiedJSON options e he]
  refine ⟨rfl, ?_, rfl, rfl, rfl, rfl, rfl, rfl⟩
  simp [jsStrOr, hne]

/-- C3 witness: a concrete unparseable original produces the described
error comparison. -/
theorem calculateDiffSync_parse_error_original_witness :
    parseJSON "not json" = .error "Unexpected token" ∧
    ("Unexpected token" : String) ≠ "" ∧
    (calculateDiffSync "not json" "\x7b\x7d" {}).status = .error ∧
    (calculateDiffSync "not json" "\x7b\x7d" {}).error =
      some { code := .PARSE_ERROR_ORIGINAL, message := "Unexpected token" } ∧
    (calculateDiffSync "not json" "\x7b\x7d" {}).differences = [] ∧
    (calculateDiffSync "not json" "\x7b\x7d" {}).delta = none := by
  have h := calculateDiffSync_parse_error_original "not json" "\x7b\x7d" {} "Unexpected token"
    rfl (by decide)
  exact ⟨rfl, by decide, h.1, h.2.1, h.2.2.1, h.2.2.2.2.2.2.2⟩

/-- C10: generateJSONPatch returns the empty patch whenever either
parsed side of the comparison is JS-falsy, including completed
comparisons of valid scalar documents such as 0, false, null or the
empty string, not only when a side failed to validate. -/
theorem generateJSONPatch_falsy_empty (comparison : DiffComparison)
    (h : (jsFalsy comparison.originalParsed || jsFalsy comparison.modifiedParsed) = true) :
    generateJSONPatch comparison = [] := by
  simp [generateJSONPatch, h]

/-- C10 witness: the completed comparison of the valid scalar document
0 with itself has a JS-falsy parsed side and an empty patch. -/
theorem generateJSONPatch_falsy_empty_witness :
    (calculateDiffSync "0" "0" {}).status = .completed ∧
    (jsFalsy (calculateDiffSync "0" "0" {}).originalParsed ||
      jsFalsy (calculateDiffSync "0" "0" {}).modifiedParsed) = true ∧
    generateJSONPatch (calculateDiffSync "0" "0" {}) = [] :=
  ⟨rfl, rfl, generateJSONPatch_falsy_empty _ rfl⟩

theorem opsKept_cons (p : Bool × Bool → Bool) (op : EditOp) (ops : List EditOp) :
    opsKept p (op :: ops) = if p op.kind then op.char :: opsKept p ops else opsKept p ops := rfl

theorem changesKept_cons (p : Bool × Bool → Bool) (c : Change) (cs : List Change) :
    changesKept p (c :: cs) =
      if p (c.added, c.removed) then c.value.toList ++ changesKept p cs else changesKept p cs := rfl

theorem opsKept_map_ins_mod (ys : List Char) :
    opsKept (fun k => !k.2) (ys.map .ins) = ys := by
  induction ys with
  | nil => rfl
  | cons y tl ih => simp [opsKept_cons, EditOp.kind, EditOp.char, ih]

theorem opsKept_map_ins_orig (ys : List Char) :
    opsKept (fun k => !k.1) (ys.map .ins) = [] := by
  induction ys with
  | nil => rfl
  | cons y tl ih => simp [opsKept_cons, EditOp.kind, EditOp.char, ih]

theorem editOpsF_kept_mod : ∀ (fuel : Nat) (xs ys : List Char),
    xs.length + ys.length < fuel → opsKept (fun k => !k.2) (editOpsF fuel xs ys) = ys := by
  intro fuel
  induction fuel with
  | zero => intro xs ys h; omega
  | succ fuel ih =>
    intro xs ys h
    match xs, ys with
    | [], ys => simp [editOpsF, opsKept_map_ins_mod]
    | x :: xs, [] =>
      simp only [editOpsF, opsKept_cons, EditOp.kind]
      simp only [List.length_cons, List.length_nil] at h
      simp [ih xs [] (by simp; omega)]
    | x :: xs, y :: ys =>
      simp only [List.length_cons] at h
      by_cases hxy : x = y
      · simp [editOpsF, hxy, opsKept_cons, EditOp.kind, EditOp.char, ih xs ys (by omega)]
      · simp only [editOpsF, hxy, if_false]
        split
        · simp [opsKept_cons, EditOp.kind, ih xs (y :: ys) (by simp; omega)]
        · simp [opsKept_cons, EditOp.kind, EditOp.char, ih (x :: xs) ys (by simp; omega)]

theorem editOpsF_kept_orig : ∀ (fuel : Nat) (xs ys : List Char),
    xs.length + ys.length < fuel → opsKept (fun k => !k.1) (editOpsF fuel xs ys) = xs := by
  intro fuel
  induction fuel with
  | zero => intro xs ys h; omega
  | succ fuel ih =>
    intro xs ys h
    match xs, ys with
    | [], ys => simp [editOpsF, opsKept_map_ins_orig]
    | x :: xs, [] =>
      simp only [editOpsF, opsKept_cons, EditOp.kind]
      simp only [List.length_cons, List.length_nil] at h
      simp [EditOp.char, ih xs [] (by simp; omega)]
    | x :: xs, y :: ys =>
      simp only [List.length_cons] at h
      by_cases hxy : x = y
      · simp [editOpsF, hxy, opsKept_cons, EditOp.kind, EditOp.char, ih xs ys (by omega)]
      · simp only [editOpsF, hxy, if_false]
        split
        · simp [opsKept_cons, EditOp.kind, EditOp.char, ih xs (y :: ys) (by simp; omega)]
        · simp [opsKept_cons, EditOp.kind, ih (x :: xs) ys (by simp; omega)]

theorem changesKept_groupOps (p : Bool × Bool → Bool) : ∀ ops : List EditOp,
    changesKept p (groupOps ops) = opsKept p ops := by
  intro ops
  induction ops with
  | nil => rfl
  | cons op rest ih =>
    simp only [groupOps]
    cases hg : groupOps rest with
    | nil =>
      rw [hg] at ih
      simp only [changesKept_cons, opsKept_cons, ← ih]
      by_cases hp : p op.kind <;> simp [hp, changesKept]
    | cons c cs =>
      rw [hg] at ih
      by_cases hk : (c.added, c.removed) = op.kind
      · simp only [hk, if_true]
        simp only [changesKept_cons, opsKept_cons, ← ih, hk] at *
        by_cases hp : p op.kind <;> simp [hp]
      · simp only [hk, if_false]
        simp only [changesKept_cons, opsKept_cons, ← ih]
        by_cases hp : p op.kind <;> simp [hp]

theorem opsKept_congr (p q : Bool × Bool → Bool) (hpq : ∀ op : EditOp, p op.kind = q op.kind) :
    ∀ ops : List EditOp, opsKept p ops = opsKept q ops := by
  intro ops
  induction ops with
  | nil => rfl
  | cons op rest ih => rw [opsKept_cons, opsKept_cons, hpq, ih]

theorem string_mk_append (l1 l2 : List Char) :
    String.mk (l1 ++ l2) = String.mk l1 ++ String.mk l2 := rfl

theorem charLoop_concat_filter (t : CharChangeType) (pk : Bool × Bool → Bool)
    (hpk : ∀ ch : Change,
      (((if ch.added then CharChangeType.add
         else if ch.removed then CharChangeType.remove else CharChangeType.equal) != t) : Bool) =
        pk (ch.added, ch.removed)) :
    ∀ (cs : List Change) (i : Int),
    ((charLoop cs i).filter (fun c => c.type != t)).foldr (fun c acc => c.value ++ acc) "" =
      String.mk (changesKept pk cs) := by
  intro cs
  induction cs with
  | nil => intro i; rfl
  | cons ch rest ih =>
    intro i
    simp only [charLoop, List.filter_cons]
    rw [changesKept_cons]
    have hty : (convertToCharChange ch i).type =
        (if ch.added then CharChangeType.add
         else if ch.removed then CharChangeType.remove else CharChangeType.equal) := rfl
    by_cases hkeep : pk (ch.added, ch.removed)
    · rw [if_pos hkeep]
      have hcond : ((convertToCharChange ch i).type != t) = true := by rw [hty, hpk]; exact hkeep
      simp only [hcond, if_true, List.foldr_cons]
      rw [ih, string_mk_append]
      rfl
    · rw [if_neg hkeep]
      have hcond : ((convertToCharChange ch i).type != t) = false := by
        rw [hty, hpk]
        simpa using hkeep
      simp only [hcond, Bool.false_eq_true, if_false]
      rw [ih]

/-- C5: re-concatenating the non-removed runs of calculateCharLevelDiff
in order reproduces the modified text, re-concatenating the non-added
runs reproduces the original, and on the pair abc, abd the runs are
equal ab, remove c, add d in that order. -/
theorem calculateCharLevelDiff_reconstructs :
    (∀ a b : String,
      (((calculateCharLevelDiff a b).filter (fun c => c.type != CharChangeType.remove)).foldr
          (fun c acc => c.value ++ acc) "") = b ∧
      (((calculateCharLevelDiff a b).filter (fun c => c.type != CharChangeType.add)).foldr
          (fun c acc => c.value ++ acc) "") = a) ∧
    calculateCharLevelDiff "abc" "abd" =
      [{ type := .equal, value := "ab", startIndex := 0, length := 2 },
       { type := .remove, value := "c", startIndex := 2, length := 1 },
       { type := .add, value := "d", startIndex := -1, length := 1 }] := by
  constructor
  · intro a b
    constructor
    · have h1 := charLoop_concat_filter CharChangeType.remove (fun k => k.1 || !k.2)
        (by intro ch; cases hA : ch.added <;> cases hR : ch.removed <;> simp [hA, hR])
        (diffChars a b) 0
      show ((charLoop (diffChars a b) 0).filter (fun c => c.type != CharChangeType.remove)).foldr
          (fun c acc => c.value ++ acc) "" = b
      rw [h1]
      show String.mk (changesKept _ (groupOps (editOps a.toList b.toList))) = b
      rw [changesKept_groupOps]
      rw [opsKept_congr (fun k => k.1 || !k.2) (fun k => !k.2) (by intro op; cases op <;> rfl)]
      show String.mk (opsKept _ (editOpsF (a.toList.length + b.toList.length + 1) _ _)) = b
      rw [editOpsF_kept_mod (a.toList.length + b.toList.length + 1) a.toList b.toList (by omega)]
      rfl
    · have h1 := charLoop_concat_filter CharChangeType.add (fun k => !k.1)
        (by intro ch; cases hA : ch.added <;> cases hR : ch.removed <;> simp [hA, hR])
        (diffChars a b) 0
      show ((charLoop (diffChars a b) 0).filter (fun c => c.type != CharChangeType.add)).foldr
          (fun c acc => c.value ++ acc) "" = a
      rw [h1]
      show String.mk (changesKept _ (groupOps (editOps a.toList b.toList))) = a
      rw [changesKept_groupOps]
      show String.mk (opsKept _ (editOpsF (a.toList.length + b.toList.length + 1) _ _)) = a
      rw [editOpsF_kept_orig (a.toList.length + b.toList.length + 1) a.toList b.toList (by omega)]
      rfl
  · decide

theorem charLoop_startIndex : ∀ (cs : List Change) (idx0 : Int) (i : Nat) (c : CharChange),
    (charLoop cs idx0)[i]? = some c →
    (c.type = .add → c.startIndex = -1) ∧
    (c.type ≠ .add →
      c.startIndex =
        idx0 + ((((charLoop cs idx0).take i).filter (fun x => x.type != CharChangeType.add)).map
            (fun x => (x.length : Int))).sum) := by
  intro cs
  induction cs with
  | nil => intro idx0 i c h; simp [charLoop] at h
  | cons ch rest ih =>
    intro idx0 i c h
    match i with
    | 0 =>
      simp only [charLoop, List.getElem?_cons_zero, Option.some.injEq] at h
      subst h
      constructor
      · intro hadd
        by_cases hA : ch.added
        · simp [convertToCharChange, hA]
        · exfalso
          simp only [convertToCharChange, hA, Bool.false_eq_true, if_false] at hadd
          by_cases hR : ch.removed <;> simp [hR] at hadd
      · intro hne
        have hA : ch.added = false := by
          by_contra hA
          simp only [Bool.not_eq_false] at hA
          exact hne (by simp [convertToCharChange, hA])
        simp [convertToCharChange, hA]
    | Nat.succ j =>
      simp only [charLoop, List.getElem?_cons_succ] at h
      have hj := ih _ j c h
      refine ⟨hj.1, fun hne => ?_⟩
      rw [hj.2 hne]
      simp only [charLoop, List.take_succ_cons, List.filter_cons]
      by_cases hA : ch.added
      · have hcond : ((convertToCharChange ch idx0).type != CharChangeType.add) = false := by
          simp [convertToCharChange, hA]
        simp [hcond, hA]
      · have hcond : ((convertToCharChange ch idx0).type != CharChangeType.add) = true := by
          by_cases hR : ch.removed <;> simp [convertToCharChange, hA, hR]
        have hlen : (convertToCharChange ch idx0).length = ch.value.length := rfl
        simp only [hcond, if_true, List.map_cons, List.sum_cons, hlen, hA]
        simp only [Bool.not_false, if_true]
        ring

/-- C7: in every CharChange list calculateCharLevelDiff returns, an add
run has startIndex -1, and an equal or remove run has startIndex equal
to the sum of the lengths of the preceding non-add runs, the offset of
the original text consumed so far. -/
theorem calculateCharLevelDiff_startIndex (a b : String) (i : Nat) (c : CharChange)
    (h : (calculateCharLevelDiff a b)[i]? = some c) :
    (c.type = .add → c.startIndex = -1) ∧
    (c.type ≠ .add →
      c.startIndex =
        ((((calculateCharLevelDiff a b).take i).filter (fun x => x.type != CharChangeType.add)).map
            (fun x => (x.length : Int))).sum) := by
  have h2 := charLoop_startIndex (diffChars a b) 0 i c h
  refine ⟨h2.1, fun hne => ?_⟩
  rw [h2.2 hne]
  show (0 : Int) + _ = _
  ring_nf
  rfl

/-- C7 witness: the remove run of the abc, abd diff sits at startIndex
2, the length of the preceding equal run, and is reported as such. -/
theorem calculateCharLevelDiff_startIndex_witness :
    (calculateCharLevelDiff "abc" "abd")[1]? =
      some { type := CharChangeType.remove, value := "c", startIndex := 2, length := 1 } ∧
    ({ type := CharChangeType.remove, value := "c", startIndex := 2, length := 1 }
        : CharChange).startIndex =
      ((((calculateCharLevelDiff "abc" "abd").take 1).filter
          (fun x => x.type != CharChangeType.add)).map (fun x => (x.length : Int))).sum := by
  refine ⟨by decide, ?_⟩
  exact (calculateCharLevelDiff_startIndex "abc" "abd" 1 _ (by decide)).2 (by decide)

theorem sizeJ_pos (v : JsonValue) : 1 ≤ sizeJ v := by
  cases v <;> simp [sizeJ]

theorem traverseDelta_mem_shape : ∀ (n : Nat) (es : JsonObj) (orig modi : Option JsonValue)
    (path : List String) (line count : Nat) (c : DiffChange),
    sizeO es ≤ n → c ∈ (traverseDelta es orig modi path line count).1 →
    (∃ cnt kp v l, c = mkAdditionChange cnt kp v l) ∨
    (∃ cnt kp ov nv l, c = mkModificationChange cnt kp ov nv l) ∨
    (∃ cnt kp v l, c = mkDeletionChange cnt kp v l) := by
  intro n
  induction n with
  | zero =>
    intro es orig modi path line count c hs hm
    cases es with
    | nil => simp [traverseDelta] at hm
    | cons k v rest =>
      exfalso
      have := sizeJ_pos v
      simp only [sizeO] at hs
      omega
  | succ n ih =>
    intro es orig modi path line count c hs hm
    cases es with
    | nil => simp [traverseDelta] at hm
    | cons k v rest =>
      simp only [sizeO] at hs
      have hrest : sizeO rest ≤ n := by have := sizeJ_pos v; omega
      by_cases hk : k = "_t"
      · rw [traverseDelta, if_pos hk] at hm
        exact ih rest orig modi path line count c hrest hm
      · cases v with
        | null =>
          rw [traverseDelta, if_neg hk] at hm
          exact ih rest orig modi path line count c hrest hm
        | bool b =>
          rw [traverseDelta, if_neg hk] at hm
          exact ih rest orig modi path line count c hrest hm
        | num q =>
          rw [traverseDelta, if_neg hk] at hm
          exact ih rest orig modi path line count c hrest hm
        | str s =>
          rw [traverseDelta, if_neg hk] at hm
          exact ih rest orig modi path line count c hrest hm
        | obj es2 =>
          rw [traverseDelta, if_neg hk] at hm
          simp only [List.mem_append] at hm
          rcases hm with h1 | h1
          · have hsz : sizeO es2 ≤ n := by simp only [sizeJ] at hs; omega
            exact ih es2 (childOf orig k) (childOf modi k) (path ++ [k]) line count c hsz h1
          · exact ih rest orig modi path _ _ c hrest h1
        | arr xs =>
          cases xs with
          | nil =>
            rw [traverseDelta, if_neg hk] at hm
            exact ih rest orig modi path line count c hrest hm
          | cons v1 xtl =>
            cases xtl with
            | nil =>
              rw [traverseDelta, if_neg hk] at hm
              simp only [List.mem_cons] at hm
              rcases hm with h1 | h1
              · exact Or.inl ⟨_, _, _, _, h1⟩
              · exact ih rest orig modi path _ _ c hrest h1
            | cons v2 xtl2 =>
              cases xtl2 with
              | nil =>
                rw [traverseDelta, if_neg hk] at hm
                simp only [List.mem_cons] at hm
                rcases hm with h1 | h1
                · exact Or.inr (Or.inl ⟨_, _, _, _, _, h1⟩)
                · exact ih rest orig modi path _ _ c hrest h1
              | cons v3 xtl3 =>
                cases xtl3 with
                | nil =>
                  simp only [traverseDelta, if_neg hk] at hm
                  by_cases hz : jeq v3 (.num 0)
                  · rw [if_pos hz] at hm
                    simp only [List.mem_cons] at hm
                    rcases hm with h1 | h1
                    · exact Or.inr (Or.inr ⟨_, _, _, _, h1⟩)
                    · exact ih rest orig modi path _ _ c hrest h1
                  · rw [if_neg hz] at hm
                    exact ih rest orig modi path line count c hrest hm
                | cons v4 xtl4 =>
                  rw [traverseDelta, if_neg hk] at hm
                  exact ih rest orig modi path line count c hrest hm

/-- C8 amended: every change the flattener emits has displayText of the
form path, colon, rendered value(s): with the suffix 新增 in
parentheses for an addition, the suffix 刪除 in parentheses for a
deletion, and the old value, an arrow, the new value for a
modification; the source uses these Chinese markers, not the English
words added and removed. -/
theorem parseDelta_displayText_format (d orig modi : Option JsonValue) (i : Nat) (c : DiffChange)
    (h : (parseDeltaToDiffChanges d orig modi)[i]? = some c) :
    (c.type = .addition → ∃ nv, c.modifiedValue = some nv ∧
        c.displayText = c.keyPath ++ ": " ++ stringifyJSON nv ++ " (新增)") ∧
    (c.type = .deletion → ∃ ov, c.originalValue = some ov ∧
        c.displayText = c.keyPath ++ ": " ++ stringifyJSON ov ++ " (刪除)") ∧
    (c.type = .modification → ∃ ov nv, c.originalValue = some ov ∧ c.modifiedValue = some nv ∧
        c.displayText = c.keyPath ++ ": " ++ stringifyJSON ov ++ " → " ++ stringifyJSON nv) := by
  cases d with
  | none => simp [parseDeltaToDiffChanges] at h
  | some dd =>
    have hmem : c ∈ (traverseDelta (nodeEntries dd) orig modi [] 1 0).1 := by
      have := List.getElem?_mem h
      simpa [parseDeltaToDiffChanges] using this
    rcases traverseDelta_mem_shape (sizeO (nodeEntries dd)) (nodeEntries dd) orig modi [] 1 0 c
        le_rfl hmem with ⟨cnt, kp, v, l, rfl⟩ | ⟨cnt, kp, ov, nv, l, rfl⟩ | ⟨cnt, kp, v, l, rfl⟩
    · refine ⟨fun _ => ⟨v, rfl, rfl⟩, fun ht => ?_, fun ht => ?_⟩
      · exact absurd ht (by simp [mkAdditionChange])
      · exact absurd ht (by simp [mkAdditionChange])
    · refine ⟨fun ht => ?_, fun ht => ?_, fun _ => ⟨ov, nv, rfl, rfl, rfl⟩⟩
      · exact absurd ht (by simp [mkModificationChange])
      · exact absurd ht (by simp [mkModificationChange])
    · refine ⟨fun ht => ?_, fun _ => ⟨v, rfl, rfl⟩, fun ht => ?_⟩
      · exact absurd ht (by simp [mkDeletionChange])
      · exact absurd ht (by simp [mkDeletionChange])

/-- C8 counterexample: on a concrete addition the emitted displayText
carries the Chinese marker, not the parenthesised English word the
claim states. -/
theorem displayText_added_cex :
    (calculateDiffSync "\x7b\x7d" "\x7b\"a\":1\x7d" {}).differences.map (fun c => c.displayText) =
      ["a: 1 (新增)"] ∧
    (calculateDiffSync "\x7b\x7d" "\x7b\"a\":1\x7d" {}).differences.map (fun c => c.type) =
      [DiffChangeType.addition] ∧
    ¬ ((calculateDiffSync "\x7b\x7d" "\x7b\"a\":1\x7d" {}).differences.map (fun c => c.displayText) =
      ["a: 1 (added)"]) :=
  ⟨rfl, rfl, by decide⟩

/-- C8 witness: a concrete addition entry carries the stated
displayText shape. -/
theorem parseDelta_displayText_format_witness :
    (parseDeltaToDiffChanges
        (some (.obj (.cons "a" (.arr (.cons (.num 1) .nil)) .nil))) none none)[0]? =
      some (mkAdditionChange 0 "a" (.num 1) 1) ∧
    (mkAdditionChange 0 "a" (.num 1) 1).type = .addition ∧
    (∃ nv, (mkAdditionChange 0 "a" (.num 1) 1).modifiedValue = some nv ∧
      (mkAdditionChange 0 "a" (.num 1) 1).displayText =
        (mkAdditionChange 0 "a" (.num 1) 1).keyPath ++ ": " ++ stringifyJSON nv ++ " (新增)") :=
  by
  refine ⟨rfl, rfl, ?_⟩
  exact (parseDelta_displayText_format
    (some (.obj (.cons "a" (.arr (.cons (.num 1) .nil)) .nil))) none none 0
    (mkAdditionChange 0 "a" (.num 1) 1) rfl).1 rfl

theorem objLookup_objInsert : ∀ (es : JsonObj) (k : String) (v : JsonValue) (key : String),
    objLookup (objInsert es k v) key = if k = key then some v else objLookup es key
  | .nil, k, v, key => by simp [objInsert, objLookup]
  | .cons k0 v0 tl, k, v, key => by
    by_cases h0 : k0 = k
    · subst h0
      by_cases hk : k0 = key <;> simp [objInsert, objLookup, hk]
    · by_cases hk : k0 = key
      · subst hk
        have hne : ¬k = k0 := fun h => h0 h.symm
        simp [objInsert, h0, objLookup, hne]
      · simp [objInsert, h0, objLookup, hk, objLookup_objInsert tl k v key]

theorem hasKeyO_objInsert (es : JsonObj) (k : String) (v : JsonValue) (key : String) :
    hasKeyO (objInsert es k v) key = (k == key || hasKeyO es key) := by
  rw [hasKeyO, objLookup_objInsert]
  by_cases hk : k = key <;> simp [hk, hasKeyO]

theorem wfO_objInsert : ∀ (es : JsonObj) (k : String) (v : JsonValue),
    wfO es = true → wfJ v = true → wfO (objInsert es k v) = true
  | .nil, k, v => by
    intro hes hv
    simp [objInsert, wfO, hasKeyO, objLookup, hv]
  | .cons k0 v0 tl, k, v => by
    intro hes hv
    simp only [wfO, Bool.and_eq_true, Bool.not_eq_true'] at hes
    obtain ⟨⟨hh, hv0⟩, htl⟩ := hes
    by_cases h0 : k0 = k
    · subst h0
      simp [objInsert, wfO, hh, hv, htl]
    · simp only [objInsert, h0, if_false, wfO, Bool.and_eq_true, Bool.not_eq_true']
      refine ⟨⟨?_, hv0⟩, wfO_objInsert tl k v htl hv⟩
      rw [hasKeyO_objInsert]
      simp [hh]
      exact fun h => h0 h.symm

theorem scan_wf : ∀ fuel : Nat,
    (∀ input v rest, scanValue fuel input = .ok (v, rest) → wfJ v = true) ∧
    (∀ input xs rest, scanArrElems fuel input = .ok (xs, rest) → wfA xs = true) ∧
    (∀ input acc es rest, scanObjMembers fuel input acc = .ok (es, rest) → wfO acc = true →
      wfO es = true) := by
  intro fuel
  induction fuel with
  | zero =>
    refine ⟨?_, ?_, ?_⟩
    · intro input v rest h; simp [scanValue] at h
    · intro input xs rest h; simp [scanArrElems] at h
    · intro input acc es rest h; simp [scanObjMembers] at h
  | succ fuel ih =>
    obtain ⟨ihv, iha, iho⟩ := ih
    refine ⟨?_, ?_, ?_⟩
    · intro input v rest h
      rw [scanValue] at h
      repeat' split at h
      all_goals try (exfalso; simp at h; done)
      all_goals simp only [Except.ok.injEq, Prod.mk.injEq] at h
      all_goals obtain ⟨h1, h2⟩ := h
      all_goals subst h1
      all_goals first
        | rfl
        | exact iha _ _ _ (by assumption)
        | exact iho _ .nil _ _ (by assumption) rfl
    · intro input xs rest h
      rw [scanArrElems] at h
      repeat' split at h
      all_goals try (exfalso; simp at h; done)
      all_goals simp only [Except.ok.injEq, Prod.mk.injEq] at h
      all_goals obtain ⟨h1, h2⟩ := h
      all_goals subst h1
      all_goals simp only [wfA, Bool.and_eq_true]
      all_goals try (refine ⟨ihv _ _ _ (by assumption), ?_⟩)
      all_goals first
        | rfl
        | trivial
        | exact iha _ _ _ (by assumption)
    · intro input acc es rest h hacc
      rw [scanObjMembers] at h
      repeat' split at h
      all_goals try (exfalso; simp at h; done)
      all_goals try (exact iho _ _ _ _ h (wfO_objInsert _ _ _ hacc (ihv _ _ _ (by assumption))))
      all_goals simp only [Except.ok.injEq, Prod.mk.injEq] at h
      all_goals obtain ⟨h1, h2⟩ := h
      all_goals subst h1
      all_goals exact wfO_objInsert _ _ _ hacc (ihv _ _ _ (by assumption))

theorem parseJSON_wf (s : String) (v : JsonValue) (h : parseJSON s = .ok v) :
    wfJ v = true := by
  rw [parseJSON] at h
  repeat' split at h
  all_goals try (exfalso; simp at h; done)
  all_goals simp only [Except.ok.injEq] at h
  all_goals subst h
  all_goals exact (scan_wf (s.length + 1)).1 _ _ _ (by assumption)

theorem hasKeyO_cons (k : String) (v : JsonValue) (tl : JsonObj) (key : String) :
    hasKeyO (.cons k v tl) key = (k == key || hasKeyO tl key) := by
  by_cases h : k = key <;> simp [hasKeyO, objLookup, h]

theorem hasKeyO_of_entryMemO : ∀ (es : JsonObj) (k : String) (v : JsonValue),
    entryMemO k v es → hasKeyO es k = true
  | .nil, k, v => fun h => h.elim
  | .cons k2 v2 tl, k, v => by
    intro hm
    rw [hasKeyO_cons]
    rcases hm with ⟨rfl, rfl⟩ | hm
    · simp
    · simp [hasKeyO_of_entryMemO tl k v hm]

theorem objLookup_of_entryMemO : ∀ (es : JsonObj) (k : String) (v : JsonValue),
    wfO es = true → entryMemO k v es → objLookup es k = some v
  | .nil, k, v => fun _ h => h.elim
  | .cons k2 v2 tl, k, v => by
    intro hwf hm
    simp only [wfO, Bool.and_eq_true, Bool.not_eq_true'] at hwf
    obtain ⟨⟨hh, _⟩, htl⟩ := hwf
    rcases hm with ⟨rfl, rfl⟩ | hm
    · simp [objLookup]
    · have hne : ¬k2 = k := by
        intro he
        subst he
        rw [hasKeyO_of_entryMemO tl k2 v hm] at hh
        cases hh
      simp only [objLookup, hne, if_false]
      exact objLookup_of_entryMemO tl k v htl hm

theorem jdpDiffObjChanged_self : ∀ (es2 es : JsonObj),
    wfO es = true →
    (∀ k v, entryMemO k v es2 → entryMemO k v es) →
    (∀ k v, entryMemO k v es2 → jdpDiff v v = none) →
    jdpDiffObjChanged es2 es = .nil
  | .nil, es => by intro _ _ _; rfl
  | .cons k v tl, es => by
    intro hwf hsub hself
    have hl : objLookup es k = some v :=
      objLookup_of_entryMemO es k v hwf (hsub k v (Or.inl ⟨rfl, rfl⟩))
    simp only [jdpDiffObjChanged, hl, hself k v (Or.inl ⟨rfl, rfl⟩)]
    exact jdpDiffObjChanged_self tl es hwf
      (fun k2 v2 h => hsub k2 v2 (Or.inr h)) (fun k2 v2 h => hself k2 v2 (Or.inr h))

theorem objAdditions_none : ∀ (es2 es : JsonObj),
    (∀ key, hasKeyO es2 key = true → hasKeyO es key = true) →
    objAdditions es es2 = .nil
  | .nil, _ => fun _ => rfl
  | .cons k v tl, es => by
    intro hsub
    have hk : hasKeyO es k = true := hsub k (by rw [hasKeyO_cons]; simp)
    simp only [objAdditions, hk, if_true]
    exact objAdditions_none tl es (fun key h => hsub key (by rw [hasKeyO_cons]; simp [h]))

theorem jdpDiffArr_self : ∀ (xs : JsonArr) (i : Nat),
    (∀ v, memA v xs → jdpDiff v v = none) → jdpDiffArr i xs xs = .nil
  | .nil, _ => fun _ => rfl
  | .cons x tl, i => by
    intro hself
    simp only [jdpDiffArr, hself x (Or.inl rfl)]
    exact jdpDiffArr_self tl (i + 1) (fun v h => hself v (Or.inr h))

theorem sizeJ_memA : ∀ (xs : JsonArr) (v : JsonValue), memA v xs → sizeJ v ≤ sizeA xs
  | .nil, v => fun h => h.elim
  | .cons x tl, v => by
    intro hm
    rcases hm with rfl | hm
    · simp [sizeA]; omega
    · have := sizeJ_memA tl v hm
      simp only [sizeA]
      omega

theorem wfJ_memA : ∀ (xs : JsonArr) (v : JsonValue), wfA xs = true → memA v xs → wfJ v = true
  | .nil, v => fun _ h => h.elim
  | .cons x tl, v => by
    intro hwf hm
    simp only [wfA, Bool.and_eq_true] at hwf
    rcases hm with rfl | hm
    · exact hwf.1
    · exact wfJ_memA tl v hwf.2 hm

theorem sizeJ_entryMemO : ∀ (es : JsonObj) (k : String) (v : JsonValue),
    entryMemO k v es → sizeJ v ≤ sizeO es
  | .nil, k, v => fun h => h.elim
  | .cons k2 v2 tl, k, v => by
    intro hm
    rcases hm with ⟨rfl, rfl⟩ | hm
    · simp [sizeO]; omega
    · have := sizeJ_entryMemO tl k v hm
      simp only [sizeO]
      omega

theorem wfJ_entryMemO : ∀ (es : JsonObj) (k : String) (v : JsonValue),
    wfO es = true → entryMemO k v es → wfJ v = true
  | .nil, k, v => fun _ h => h.elim
  | .cons k2 v2 tl, k, v => by
    intro hwf hm
    simp only [wfO, Bool.and_eq_true] at hwf
    rcases hm with ⟨rfl, rfl⟩ | hm
    · exact hwf.1.2
    · exact wfJ_entryMemO tl k v hwf.2 hm

theorem jdpDiff_self_aux : ∀ (n : Nat) (a : JsonValue),
    sizeJ a ≤ n → wfJ a = true → jdpDiff a a = none := by
  intro n
  induction n with
  | zero => intro a h _; have := sizeJ_pos a; omega
  | succ n ih =>
    intro a hs hwf
    cases a with
    | null => rfl
    | bool b => simp [jdpDiff, jeq]
    | num q => simp [jdpDiff, jeq]
    | str s2 => simp [jdpDiff, jeq]
    | arr xs =>
      have h : jdpDiffArr 0 xs xs = .nil := by
        refine jdpDiffArr_self xs 0 (fun v hm => ih v ?_ ?_)
        · have := sizeJ_memA xs v hm
          simp only [sizeJ] at hs
          omega
        · exact wfJ_memA xs v hwf hm
      simp [jdpDiff, h]
    | obj es =>
      have h1 : jdpDiffObjChanged es es = .nil := by
        refine jdpDiffObjChanged_self es es hwf (fun k v hm => hm) (fun k v hm => ih v ?_ ?_)
        · have := sizeJ_entryMemO es k v hm
          simp only [sizeJ] at hs
          omega
        · exact wfJ_entryMemO es k v hwf hm
      have h2 : objAdditions es es = .nil := objAdditions_none es es (fun _ h => h)
      simp [jdpDiff, h1, h2, appendO]

/-- C4: comparing a valid JSON text with itself yields a completed
Comparison with an empty differences list and all summary counts
zero. -/
theorem calculateDiffSync_self (a : String) (opts : DiffOptionsInput) (v : JsonValue)
    (h : parseJSON a = .ok v) :
    (calculateDiffSync a a opts).differences = [] ∧
    (calculateDiffSync a a opts).summary.totalChanges = 0 ∧
    (calculateDiffSync a a opts).summary.additionCount = 0 ∧
    (calculateDiffSync a a opts).summary.deletionCount = 0 ∧
    (calculateDiffSync a a opts).summary.modificationCount = 0 ∧
    (calculateDiffSync a a opts).status = .completed := by
  rw [calculateDiffSync_ok_ok a a opts v v h h]
  have hd : jdpDiff v v = none := jdpDiff_self_aux (sizeJ v) v le_rfl (parseJSON_wf a v h)
  simp [hd, parseDeltaToDiffChanges, nodeEntries, traverseDelta, calculateSummary]

/-- C4 witness: a concrete valid document compared with itself. -/
theorem calculateDiffSync_self_witness :
    parseJSON "\x7b\"a\":1\x7d" = .ok (.obj (.cons "a" (.num 1) .nil)) ∧
    (calculateDiffSync "\x7b\"a\":1\x7d" "\x7b\"a\":1\x7d" {}).differences = [] ∧
    (calculateDiffSync "\x7b\"a\":1\x7d" "\x7b\"a\":1\x7d" {}).summary.totalChanges = 0 ∧
    (calculateDiffSync "\x7b\"a\":1\x7d" "\x7b\"a\":1\x7d" {}).status = .completed := by
  have h := calculateDiffSync_self "\x7b\"a\":1\x7d" {} (.obj (.cons "a" (.num 1) .nil)) rfl
  exact ⟨rfl, h.1, h.2.1, h.2.2.2.2.2⟩

theorem counts_add_def (x y : Counts) :
    x + y = ⟨x.adds + y.adds, x.dels + y.dels, x.mods + y.mods⟩ := rfl

theorem counts_add_assoc (x y z : Counts) : x + y + z = x + (y + z) := by
  simp [counts_add_def, Counts.mk.injEq]
  omega

theorem counts_add_comm (x y : Counts) : x + y = y + x := by
  simp [counts_add_def, Counts.mk.injEq]
  omega

theorem counts_add_left_comm (x y z : Counts) : x + (y + z) = y + (x + z) := by
  simp [counts_add_def, Counts.mk.injEq]
  omega

theorem counts_zero_add (x : Counts) : (⟨0, 0, 0⟩ : Counts) + x = x := by
  cases x
  simp [counts_add_def]

theorem counts_add_zero (x : Counts) : x + (⟨0, 0, 0⟩ : Counts) = x := by
  cases x
  simp [counts_add_def]

theorem counts_swap_add (x y : Counts) : (x + y).swap = x.swap + y.swap := rfl

theorem counts_swap_swap (x : Counts) : x.swap.swap = x := rfl

theorem counts_swap_ite (c : Prop) [Decidable c] (x y : Counts) :
    (if c then x else y).swap = if c then x.swap else y.swap := by
  by_cases h : c <;> simp [h]

theorem objCounts_cons (k : String) (v : JsonValue) (tl : JsonObj) :
    objCounts (.cons k v tl) =
      (if k = "_t" then ⟨0, 0, 0⟩ else entryCounts v) + objCounts tl := rfl

theorem objCounts_append : ∀ (e1 e2 : JsonObj),
    objCounts (appendO e1 e2) = objCounts e1 + objCounts e2
  | .nil, e2 => by simp [appendO, objCounts, counts_zero_add]
  | .cons k v tl, e2 => by
    simp only [appendO, objCounts_cons, objCounts_append tl e2, counts_add_assoc]

theorem changesCounts_nil : changesCounts [] = ⟨0, 0, 0⟩ := rfl

theorem changesCounts_cons (c : DiffChange) (l : List DiffChange) :
    changesCounts (c :: l) = typeWeight c.type + changesCounts l := by
  cases h : c.type <;>
    simp [changesCounts, List.filter_cons, h, typeWeight, counts_add_def, Counts.mk.injEq] <;>
    omega

theorem changesCounts_append (l1 l2 : List DiffChange) :
    changesCounts (l1 ++ l2) = changesCounts l1 + changesCounts l2 := by
  simp [changesCounts, List.filter_append, counts_add_def]

theorem entryCounts_scalar_null : entryCounts .null = ⟨0, 0, 0⟩ := rfl

theorem entryCounts_dAdd (v : JsonValue) : entryCounts (dAdd v) = ⟨1, 0, 0⟩ := rfl

theorem entryCounts_dMod (o n : JsonValue) : entryCounts (dMod o n) = ⟨0, 0, 1⟩ := rfl

theorem entryCounts_dDel (o : JsonValue) : entryCounts (dDel o) = ⟨0, 1, 0⟩ := by
  simp [entryCounts, dDel, jeq]

theorem traverseDelta_counts : ∀ (n : Nat) (es : JsonObj) (orig modi : Option JsonValue)
    (path : List String) (line count : Nat),
    sizeO es ≤ n →
    changesCounts (traverseDelta es orig modi path line count).1 = objCounts es := by
  intro n
  induction n with
  | zero =>
    intro es orig modi path line count hs
    cases es with
    | nil => rfl
    | cons k v rest =>
      exfalso
      have := sizeJ_pos v
      simp only [sizeO] at hs
      omega
  | succ n ih =>
    intro es orig modi path line count hs
    cases es with
    | nil => rfl
    | cons k v rest =>
      simp only [sizeO] at hs
      have hrest : sizeO rest ≤ n := by have := sizeJ_pos v; omega
      by_cases hk : k = "_t"
      · rw [traverseDelta, if_pos hk, objCounts_cons, if_pos hk, counts_zero_add]
        exact ih rest orig modi path line count hrest
      · rw [objCounts_cons, if_neg hk]
        cases v with
        | null =>
          rw [traverseDelta, if_neg hk]
          rw [show entryCounts JsonValue.null = ⟨0,0,0⟩ from rfl, counts_zero_add]
          exact ih rest orig modi path line count hrest
        | bool b =>
          rw [traverseDelta, if_neg hk]
          rw [show entryCounts (JsonValue.bool b) = ⟨0,0,0⟩ from rfl, counts_zero_add]
          exact ih rest orig modi path line count hrest
        | num q =>
          rw [traverseDelta, if_neg hk]
          rw [show entryCounts (JsonValue.num q) = ⟨0,0,0⟩ from rfl, counts_zero_add]
          exact ih rest orig modi path line count hrest
        | str s2 =>
          rw [traverseDelta, if_neg hk]
          rw [show entryCounts (JsonValue.str s2) = ⟨0,0,0⟩ from rfl, counts_zero_add]
          exact ih rest orig modi path line count hrest
        | obj es2 =>
          rw [traverseDelta, if_neg hk]
          have hsz2 : sizeO es2 ≤ n := by simp only [sizeJ] at hs; omega
          show changesCounts (_ ++ _) = _
          rw [changesCounts_append,
            ih es2 (childOf orig k) (childOf modi k) (path ++ [k]) line count hsz2,
            ih rest orig modi path _ _ hrest]
          rfl
        | arr xs =>
          cases xs with
          | nil =>
            rw [traverseDelta, if_neg hk]
            rw [show entryCounts (JsonValue.arr .nil) = ⟨0,0,0⟩ from rfl, counts_zero_add]
            exact ih rest orig modi path line count hrest
          | cons v1 xtl =>
            cases xtl with
            | nil =>
              rw [traverseDelta, if_neg hk]
              show changesCounts (_ :: _) = _
              rw [changesCounts_cons, ih rest orig modi path _ _ hrest]
              rfl
            | cons v2 xtl2 =>
              cases xtl2 with
              | nil =>
                rw [traverseDelta, if_neg hk]
                show changesCounts (_ :: _) = _
                rw [changesCounts_cons, ih rest orig modi path _ _ hrest]
                rfl
              | cons v3 xtl3 =>
                cases xtl3 with
                | nil =>
                  simp only [traverseDelta, if_neg hk]
                  by_cases hz : jeq v3 (.num 0)
                  · simp only [hz, if_true]
                    show changesCounts (_ :: _) = _
                    rw [changesCounts_cons, ih rest orig modi path _ _ hrest]
                    simp only [entryCounts, hz, if_true]
                    rfl
                  · simp only [hz, Bool.false_eq_true, if_false]
                    rw [ih rest orig modi path line count hrest]
                    simp only [entryCounts, hz, Bool.false_eq_true, if_false, counts_zero_add]
                | cons v4 xtl4 =>
                  rw [traverseDelta, if_neg hk]
                  rw [show entryCounts
                      (JsonValue.arr (.cons v1 (.cons v2 (.cons v3 (.cons v4 xtl4))))) =
                      ⟨0,0,0⟩ from rfl, counts_zero_add]
                  exact ih rest orig modi path line count hrest

theorem objLookup_erase_ne : ∀ (es : JsonObj) (k key : String), key ≠ k →
    objLookup (objErase es k) key = objLookup es key
  | .nil, _, _ => fun _ => rfl
  | .cons k2 v2 tl, k, key => by
    intro hne
    by_cases h2 : k2 = k
    · subst h2
      have : ¬k2 = key := fun h => hne (h.symm.trans rfl)
      simp [objErase, objLookup, this]
    · by_cases hky : k2 = key
      · subst hky
        simp [objErase, h2, objLookup]
      · simp [objErase, h2, objLookup, hky, objLookup_erase_ne tl k key hne]

theorem hasKeyO_erase_ne (es : JsonObj) (k key : String) (h : key ≠ k) :
    hasKeyO (objErase es k) key = hasKeyO es key := by
  rw [hasKeyO, hasKeyO, objLookup_erase_ne es k key h]

theorem objErase_of_not_hasKey : ∀ (es : JsonObj) (k : String),
    hasKeyO es k = false → objErase es k = es
  | .nil, _ => fun _ => rfl
  | .cons k2 v2 tl, k => by
    intro h
    rw [hasKeyO_cons] at h
    simp only [Bool.or_eq_false_iff, beq_eq_false_iff_ne, ne_eq] at h
    simp [objErase, h.1, objErase_of_not_hasKey tl k h.2]

theorem hasKeyO_of_erase : ∀ (es : JsonObj) (k key : String),
    hasKeyO (objErase es k) key = true → hasKeyO es key = true
  | .nil, _, _ => fun h => by simp [objErase, hasKeyO, objLookup] at h
  | .cons k2 v2 tl, k, key => by
    intro h
    by_cases h2 : k2 = k
    · subst h2
      rw [objErase, if_pos rfl] at h
      rw [hasKeyO_cons, h]
      simp
    · rw [objErase, if_neg h2] at h
      rw [hasKeyO_cons] at h ⊢
      rcases Bool.or_eq_true_iff.mp h with h3 | h3
      · simp [h3]
      · simp [hasKeyO_of_erase tl k key h3]

theorem wfO_erase : ∀ (es : JsonObj) (k : String), wfO es = true → wfO (objErase es k) = true
  | .nil, _ => fun _ => rfl
  | .cons k2 v2 tl, k => by
    intro h
    simp only [wfO, Bool.and_eq_true, Bool.not_eq_true'] at h
    obtain ⟨⟨hh, hv⟩, htl⟩ := h
    by_cases h2 : k2 = k
    · subst h2
      rw [objErase, if_pos rfl]
      exact htl
    · rw [objErase, if_neg h2]
      simp only [wfO, Bool.and_eq_true, Bool.not_eq_true']
      refine ⟨⟨?_, hv⟩, wfO_erase tl k htl⟩
      cases h3 : hasKeyO (objErase tl k) k2
      · rfl
      · rw [hasKeyO_of_erase tl k k2 h3] at hh
        exact hh

theorem sizeO_erase_le : ∀ (es : JsonObj) (k : String), sizeO (objErase es k) ≤ sizeO es
  | .nil, _ => le_rfl
  | .cons k2 v2 tl, k => by
    by_cases h2 : k2 = k
    · subst h2
      rw [objErase, if_pos rfl]
      simp only [sizeO]
      have := sizeJ_pos v2
      omega
    · rw [objErase, if_neg h2]
      simp only [sizeO]
      have := sizeO_erase_le tl k
      omega

theorem objLookup_wf : ∀ (es : JsonObj) (k : String) (v : JsonValue),
    wfO es = true → objLookup es k = some v → wfJ v = true
  | .nil, _, _ => fun _ h => by simp [objLookup] at h
  | .cons k2 v2 tl, k, v => by
    intro hwf h
    simp only [wfO, Bool.and_eq_true] at hwf
    by_cases h2 : k2 = k
    · rw [objLookup, if_pos h2] at h
      cases h
      exact hwf.1.2
    · rw [objLookup, if_neg h2] at h
      exact objLookup_wf tl k v hwf.2 h

theorem objLookup_size : ∀ (es : JsonObj) (k : String) (v : JsonValue),
    objLookup es k = some v → sizeJ v ≤ sizeO es
  | .nil, _, _ => fun h => by simp [objLookup] at h
  | .cons k2 v2 tl, k, v => by
    intro h
    by_cases h2 : k2 = k
    · rw [objLookup, if_pos h2] at h
      cases h
      simp only [sizeO]
      omega
    · rw [objLookup, if_neg h2] at h
      have := objLookup_size tl k v h
      simp only [sizeO]
      omega

theorem DC_skipKey : ∀ (tl : JsonObj) (k : String) (v : JsonValue) (eb : JsonObj),
    hasKeyO tl k = false →
    jdpDiffObjChanged tl (.cons k v eb) = jdpDiffObjChanged tl eb
  | .nil, _, _, _ => fun _ => rfl
  | .cons k2 v2 tl2, k, v, eb => by
    intro h
    rw [hasKeyO_cons] at h
    simp only [Bool.or_eq_false_iff, beq_eq_false_iff_ne, ne_eq] at h
    have hne : ¬k = k2 := fun he => h.1 he.symm
    simp only [jdpDiffObjChanged, objLookup, hne, if_false]
    rw [DC_skipKey tl2 k v eb h.2]

theorem DC_erase : ∀ (tl : JsonObj) (k : String) (eb : JsonObj),
    hasKeyO tl k = false →
    jdpDiffObjChanged tl (objErase eb k) = jdpDiffObjChanged tl eb
  | .nil, _, _ => fun _ => rfl
  | .cons k2 v2 tl2, k, eb => by
    intro h
    rw [hasKeyO_cons] at h
    simp only [Bool.or_eq_false_iff, beq_eq_false_iff_ne, ne_eq] at h
    simp only [jdpDiffObjChanged, objLookup_erase_ne eb k k2 h.1]
    rw [DC_erase tl2 k eb h.2]

theorem objAdditions_cons_not_has : ∀ (eb2 : JsonObj) (k : String) (v : JsonValue) (tl : JsonObj),
    hasKeyO eb2 k = false →
    objAdditions (.cons k v tl) eb2 = objAdditions tl eb2
  | .nil, _, _, _ => fun _ => rfl
  | .cons k2 v2 tl2, k, v, tl => by
    intro h
    rw [hasKeyO_cons] at h
    simp only [Bool.or_eq_false_iff, beq_eq_false_iff_ne, ne_eq] at h
    have hne : ¬k = k2 := fun he => h.1 he.symm
    simp only [objAdditions, hasKeyO_cons]
    have : (k == k2) = false := by simp [hne]
    rw [this]
    simp only [Bool.false_or]
    rw [objAdditions_cons_not_has tl2 k v tl h.2]

theorem objAdditions_cons_erase : ∀ (eb : JsonObj) (k : String) (v : JsonValue) (tl : JsonObj),
    wfO eb = true →
    objAdditions (.cons k v tl) eb = objAdditions tl (objErase eb k)
  | .nil, _, _, _ => fun _ => rfl
  | .cons k2 v2 tl2, k, v, tl => by
    intro hwf
    simp only [wfO, Bool.and_eq_true, Bool.not_eq_true'] at hwf
    obtain ⟨⟨hh, _⟩, htl2⟩ := hwf
    by_cases h2 : k2 = k
    · subst h2
      rw [objErase, if_pos rfl]
      have hk : hasKeyO (JsonObj.cons k2 v tl) k2 = true := by
        rw [hasKeyO_cons]; simp
      simp only [objAdditions, hk, if_true]
      exact objAdditions_cons_not_has tl2 k2 v tl hh
    · rw [objErase, if_neg h2]
      have he1 : hasKeyO (JsonObj.cons k v tl) k2 = hasKeyO tl k2 := by
        rw [hasKeyO_cons]
        have : (k == k2) = false := by simp; exact fun he => h2 he.symm
        rw [this, Bool.false_or]
      simp only [objAdditions, he1]
      cases h3 : hasKeyO tl k2
      · simp only [Bool.false_eq_true, if_false]
        rw [objAdditions_cons_erase tl2 k v tl htl2]
      · simp only [if_true]
        rw [objAdditions_cons_erase tl2 k v tl htl2]

theorem objAdditions_erase_ref : ∀ (tl : JsonObj) (eb : JsonObj) (k : String),
    hasKeyO tl k = false →
    objAdditions (objErase eb k) tl = objAdditions eb tl
  | .nil, _, _ => fun _ => rfl
  | .cons k2 v2 tl2, eb, k => by
    intro h
    rw [hasKeyO_cons] at h
    simp only [Bool.or_eq_false_iff, beq_eq_false_iff_ne, ne_eq] at h
    simp only [objAdditions, hasKeyO_erase_ne eb k k2 h.1]
    rw [objAdditions_erase_ref tl2 eb k h.2]

theorem objCounts_matchCons (o : Option JsonValue) (k : String) (rest : JsonObj) :
    objCounts (match o with | none => rest | some d => .cons k d rest) =
      (if k = "_t" then ⟨0, 0, 0⟩ else diffCountsOpt o) + objCounts rest := by
  cases o with
  | none =>
    simp only [diffCountsOpt]
    by_cases hk : k = "_t" <;> simp [hk, counts_zero_add]
  | some d => rw [objCounts_cons]; rfl

theorem objCounts_DC_cons (k : String) (v : JsonValue) (tl eb : JsonObj) :
    objCounts (jdpDiffObjChanged (.cons k v tl) eb) =
      (if k = "_t" then ⟨0, 0, 0⟩ else dcHead k v eb) + objCounts (jdpDiffObjChanged tl eb) := by
  simp only [jdpDiffObjChanged]
  cases hl : objLookup eb k with
  | none =>
    rw [objCounts_cons]
    simp only [dcHead, hl, entryCounts_dDel]
  | some v2 =>
    rw [objCounts_matchCons]
    simp only [dcHead, hl]

theorem objCounts_AC_cons (ea : JsonObj) (k : String) (v : JsonValue) (tl : JsonObj) :
    objCounts (objAdditions ea (.cons k v tl)) =
      (if hasKeyO ea k then ⟨0, 0, 0⟩
       else if k = "_t" then ⟨0, 0, 0⟩ else ⟨1, 0, 0⟩) + objCounts (objAdditions ea tl) := by
  simp only [objAdditions]
  cases h : hasKeyO ea k with
  | false =>
    simp only [Bool.false_eq_true, if_false, objCounts_cons, entryCounts_dAdd]
  | true => simp only [if_true, counts_zero_add]

theorem DC_against_cons : ∀ (eb : JsonObj) (k : String) (v : JsonValue) (tl : JsonObj),
    wfO eb = true → hasKeyO tl k = false →
    objCounts (jdpDiffObjChanged eb (.cons k v tl)) =
      (if k = "_t" then ⟨0, 0, 0⟩ else dcHeadRev k v eb) +
        objCounts (jdpDiffObjChanged (objErase eb k) tl)
  | .nil, k, v, tl => by
    intro _ _
    simp [jdpDiffObjChanged, objLookup, objErase, objCounts, counts_zero_add, dcHeadRev,
      counts_add_zero]
  | .cons k2 v2 tl2, k, v, tl => by
    intro hwf htl
    simp only [wfO, Bool.and_eq_true, Bool.not_eq_true'] at hwf
    obtain ⟨⟨hh, _⟩, htl2⟩ := hwf
    by_cases h2 : k2 = k
    · subst h2
      rw [objCounts_DC_cons]
      have hdc : dcHead k2 v2 (.cons k2 v tl) = diffCountsOpt (jdpDiff v2 v) := by
        simp [dcHead, objLookup]
      have hdcr : dcHeadRev k2 v (.cons k2 v2 tl2) = diffCountsOpt (jdpDiff v2 v) := by
        simp [dcHeadRev, objLookup]
      rw [hdc, hdcr, DC_skipKey tl2 k2 v tl hh]
      rw [objErase, if_pos rfl]
    · rw [objCounts_DC_cons]
      have hdc : dcHead k2 v2 (.cons k v tl) = dcHead k2 v2 tl := by
        have hne : ¬k = k2 := fun he => h2 he.symm
        simp [dcHead, objLookup, hne]
      have hdcr : dcHeadRev k v (.cons k2 v2 tl2) = dcHeadRev k v tl2 := by
        simp [dcHeadRev, objLookup, h2]
      rw [hdc, hdcr, DC_against_cons tl2 k v tl htl2 htl]
      rw [objErase, if_neg h2, objCounts_DC_cons]
      rw [counts_add_left_comm]

theorem DC_nil_AC : ∀ (eb : JsonObj),
    objCounts (jdpDiffObjChanged eb .nil) = (objCounts (objAdditions .nil eb)).swap
  | .nil => rfl
  | .cons k2 v2 tl2 => by
    rw [objCounts_DC_cons, objCounts_AC_cons, counts_swap_add, DC_nil_AC tl2]
    have : hasKeyO JsonObj.nil k2 = false := rfl
    rw [this]
    simp only [Bool.false_eq_true, if_false]
    have hd : dcHead k2 v2 .nil = ⟨0, 1, 0⟩ := rfl
    rw [hd]
    by_cases hk : k2 = "_t" <;> simp [hk, Counts.swap]

theorem arrDels_swap : ∀ (xs : JsonArr) (i : Nat),
    objCounts (jdpDiffArr i xs .nil) = (objCounts (arrAdditions i xs)).swap
  | .nil, _ => rfl
  | .cons x tl, i => by
    simp only [jdpDiffArr, arrAdditions, objCounts_cons, counts_swap_add, counts_swap_ite,
      entryCounts_dDel, entryCounts_dAdd, arrDels_swap tl (i + 1)]
    rfl

theorem C_symm_obj : ∀ (m : Nat) (ea eb : JsonObj),
    (∀ x y : JsonValue, sizeJ x + sizeJ y ≤ m → wfJ x = true → wfJ y = true →
      diffCountsOpt (jdpDiff y x) = (diffCountsOpt (jdpDiff x y)).swap) →
    sizeO ea + sizeO eb ≤ m → wfO ea = true → wfO eb = true →
    objCounts (jdpDiffObjChanged eb ea) + objCounts (objAdditions eb ea) =
      (objCounts (jdpDiffObjChanged ea eb) + objCounts (objAdditions ea eb)).swap
  | m, .nil, eb => by
    intro hval hsz hwa hwb
    have h1 : objCounts (objAdditions eb .nil) = ⟨0, 0, 0⟩ := rfl
    have h2 : objCounts (jdpDiffObjChanged .nil eb) = ⟨0, 0, 0⟩ := rfl
    rw [h1, h2, counts_add_zero, counts_zero_add, DC_nil_AC]
  | m, .cons k v tl, eb => by
    intro hval hsz hwa hwb
    simp only [wfO, Bool.and_eq_true, Bool.not_eq_true'] at hwa
    obtain ⟨⟨hh, hv⟩, htl⟩ := hwa
    simp only [sizeO] at hsz
    have hrec := C_symm_obj m tl (objErase eb k) hval
      (by have := sizeO_erase_le eb k; have := sizeJ_pos v; omega) htl (wfO_erase eb k hwb)
    rw [DC_against_cons eb k v tl hwb hh, objCounts_AC_cons,
      objCounts_DC_cons, objAdditions_cons_erase eb k v tl hwb]
    rw [← DC_erase tl k eb hh, ← objAdditions_erase_ref tl eb k hh]
    rw [counts_swap_add] at hrec
    rw [counts_swap_add, counts_swap_add, counts_swap_ite]
    cases hl : objLookup eb k with
    | some v2 =>
      have hsv : sizeJ v + sizeJ v2 ≤ m := by
        have := objLookup_size eb k v2 hl
        have := sizeJ_pos v
        omega
      have hhead : diffCountsOpt (jdpDiff v2 v) = (diffCountsOpt (jdpDiff v v2)).swap :=
        hval v v2 hsv hv (objLookup_wf eb k v2 hwb hl)
      have hkey : hasKeyO eb k = true := by rw [hasKeyO, hl]; rfl
      have hdc : dcHead k v eb = diffCountsOpt (jdpDiff v v2) := by simp [dcHead, hl]
      have hdcr : dcHeadRev k v eb = diffCountsOpt (jdpDiff v2 v) := by simp [dcHeadRev, hl]
      rw [hkey, if_pos rfl, counts_zero_add, hdcr, hdc, ← hhead]
      rw [counts_add_assoc, hrec, counts_add_assoc]
      congr 1
    | none =>
      have hkey : hasKeyO eb k = false := by rw [hasKeyO, hl]; rfl
      have hdc : dcHead k v eb = ⟨0, 1, 0⟩ := by simp [dcHead, hl]
      have hdcr : dcHeadRev k v eb = ⟨0, 0, 0⟩ := by simp [dcHeadRev, hl]
      have herase : objErase eb k = eb := objErase_of_not_hasKey eb k hkey
      rw [herase] at hrec
      rw [hkey, hdc, hdcr, herase]
      by_cases hk : k = "_t"
      · simp only [hk, if_true, ite_self, counts_zero_add, Bool.false_eq_true, if_false]
        rw [show (⟨0, 0, 0⟩ : Counts).swap = ⟨0, 0, 0⟩ from rfl, counts_zero_add, hrec]
      · simp only [hk, if_false, ite_self, counts_zero_add, Bool.false_eq_true]
        rw [counts_add_left_comm, hrec]
        rw [show (⟨0, 1, 0⟩ : Counts).swap = ⟨1, 0, 0⟩ from rfl, counts_add_assoc]

theorem objCounts_arr_cons (i : Nat) (x y : JsonValue) (tl tl2 : JsonArr) :
    objCounts (jdpDiffArr i (.cons x tl) (.cons y tl2)) =
      (if toString i = "_t" then ⟨0, 0, 0⟩ else diffCountsOpt (jdpDiff x y)) +
        objCounts (jdpDiffArr (i + 1) tl tl2) := by
  simp only [jdpDiffArr]
  cases h : jdpDiff x y with
  | none =>
    simp only [diffCountsOpt]
    by_cases hk : toString i = "_t" <;> simp [hk, counts_zero_add]
  | some d => rw [objCounts_cons]; rfl

theorem C_symm_arr : ∀ (xa : JsonArr) (m : Nat) (xb : JsonArr) (i : Nat),
    (∀ x y : JsonValue, sizeJ x + sizeJ y ≤ m → wfJ x = true → wfJ y = true →
      diffCountsOpt (jdpDiff y x) = (diffCountsOpt (jdpDiff x y)).swap) →
    sizeA xa + sizeA xb ≤ m → wfA xa = true → wfA xb = true →
    objCounts (jdpDiffArr i xb xa) = (objCounts (jdpDiffArr i xa xb)).swap
  | .nil, m, xb, i => by
    intro hval hsz hwa hwb
    rw [show jdpDiffArr i JsonArr.nil xb = arrAdditions i xb from rfl]
    rw [arrDels_swap xb i]
  | .cons x tl, m, xb, i => by
    intro hval hsz hwa hwb
    cases xb with
    | nil =>
      rw [show jdpDiffArr i JsonArr.nil (JsonArr.cons x tl) =
        arrAdditions i (JsonArr.cons x tl) from rfl]
      rw [arrDels_swap (JsonArr.cons x tl) i, counts_swap_swap]
    | cons y tl2 =>
      simp only [wfA, Bool.and_eq_true] at hwa hwb
      simp only [sizeA] at hsz
      rw [objCounts_arr_cons, objCounts_arr_cons, counts_swap_add, counts_swap_ite]
      have hhead := hval x y (by have := sizeJ_pos x; have := sizeJ_pos y; omega) hwa.1 hwb.1
      rw [← hhead]
      congr 1
      exact C_symm_arr tl m tl2 (i + 1) hval (by omega) hwa.2 hwb.2

theorem diffCounts_jdpDiff_obj (ea eb : JsonObj) :
    diffCountsOpt (jdpDiff (.obj ea) (.obj eb)) =
      objCounts (jdpDiffObjChanged ea eb) + objCounts (objAdditions ea eb) := by
  rw [← objCounts_append]
  simp only [jdpDiff]
  cases h : appendO (jdpDiffObjChanged ea eb) (objAdditions ea eb) with
  | nil => rfl
  | cons k v tl => rfl

theorem diffCounts_jdpDiff_arr (xa xb : JsonArr) :
    diffCountsOpt (jdpDiff (.arr xa) (.arr xb)) = objCounts (jdpDiffArr 0 xa xb) := by
  simp only [jdpDiff]
  cases h : jdpDiffArr 0 xa xb with
  | nil => rfl
  | cons k v tl =>
    show entryCounts (.obj (.cons "_t" (.str "a") (.cons k v tl))) = _
    rw [show entryCounts (JsonValue.obj (.cons "_t" (.str "a") (.cons k v tl))) =
      objCounts (.cons "_t" (.str "a") (.cons k v tl)) from rfl]
    rw [objCounts_cons, if_pos rfl, counts_zero_add]

theorem jdpDiff_counts_symm : ∀ (n : Nat) (a b : JsonValue), sizeJ a + sizeJ b ≤ n →
    wfJ a = true → wfJ b = true →
    diffCountsOpt (jdpDiff b a) = (diffCountsOpt (jdpDiff a b)).swap := by
  intro n
  induction n using Nat.strong_induction_on with
  | _ n IH =>
    intro a b hs wfa wfb
    cases a <;> cases b
    case obj.obj ea eb =>
      simp only [wfJ] at wfa wfb
      simp only [sizeJ] at hs
      rw [diffCounts_jdpDiff_obj, diffCounts_jdpDiff_obj]
      exact C_symm_obj (sizeO ea + sizeO eb) ea eb
        (fun x y hxy wx wy => IH (sizeO ea + sizeO eb) (by omega) x y hxy wx wy)
        le_rfl wfa wfb
    case arr.arr xa xb =>
      simp only [wfJ] at wfa wfb
      simp only [sizeJ] at hs
      rw [diffCounts_jdpDiff_arr, diffCounts_jdpDiff_arr]
      exact C_symm_arr xa (sizeA xa + sizeA xb) xb 0
        (fun x y hxy wx wy => IH (sizeA xa + sizeA xb) (by omega) x y hxy wx wy)
        le_rfl wfa wfb
    case bool.bool x y =>
      by_cases hxy : x = y
      · subst hxy; simp [jdpDiff, jeq, diffCountsOpt, Counts.swap]
      · have h2 : ¬y = x := fun h => hxy h.symm
        simp [jdpDiff, jeq, hxy, h2, diffCountsOpt, dMod, entryCounts, Counts.swap]
    case num.num x y =>
      by_cases hxy : x = y
      · subst hxy; simp [jdpDiff, jeq, diffCountsOpt, Counts.swap]
      · have h2 : ¬y = x := fun h => hxy h.symm
        simp [jdpDiff, jeq, hxy, h2, diffCountsOpt, dMod, entryCounts, Counts.swap]
    case str.str x y =>
      by_cases hxy : x = y
      · subst hxy; simp [jdpDiff, jeq, diffCountsOpt, Counts.swap]
      · have h2 : ¬y = x := fun h => hxy h.symm
        simp [jdpDiff, jeq, hxy, h2, diffCountsOpt, dMod, entryCounts, Counts.swap]
    all_goals simp [jdpDiff, jeq, diffCountsOpt, dMod, entryCounts, Counts.swap]

theorem topCounts_obj (ea eb : JsonObj) :
    objCounts (nodeEntries ((jdpDiff (.obj ea) (.obj eb)).getD (.obj .nil))) =
      diffCountsOpt (jdpDiff (.obj ea) (.obj eb)) := by
  simp only [jdpDiff]
  cases h : appendO (jdpDiffObjChanged ea eb) (objAdditions ea eb) with
  | nil => rfl
  | cons k v tl => rfl

theorem topCounts_arr (xa xb : JsonArr) :
    objCounts (nodeEntries ((jdpDiff (.arr xa) (.arr xb)).getD (.obj .nil))) =
      diffCountsOpt (jdpDiff (.arr xa) (.arr xb)) := by
  simp only [jdpDiff]
  cases h : jdpDiffArr 0 xa xb with
  | nil => rfl
  | cons k v tl => rfl

theorem topCounts_symm (va vb : JsonValue) (wa : wfJ va = true) (wb : wfJ vb = true)
    (hk : sameTopKind va vb = true) :
    objCounts (nodeEntries ((jdpDiff vb va).getD (.obj .nil))) =
      (objCounts (nodeEntries ((jdpDiff va vb).getD (.obj .nil)))).swap := by
  cases va <;> cases vb
  case obj.obj ea eb =>
    rw [topCounts_obj, topCounts_obj]
    exact jdpDiff_counts_symm (sizeJ (JsonValue.obj ea) + sizeJ (JsonValue.obj eb)) _ _
      le_rfl wa wb
  case arr.arr xa xb =>
    rw [topCounts_arr, topCounts_arr]
    exact jdpDiff_counts_symm (sizeJ (JsonValue.arr xa) + sizeJ (JsonValue.arr xb)) _ _
      le_rfl wa wb
  case bool.bool x y =>
    by_cases hxy : x = y
    · subst hxy; simp [jdpDiff, jeq, nodeEntries, objCounts, Counts.swap]
    · have h2 : ¬y = x := fun h => hxy h.symm
      simp [jdpDiff, jeq, hxy, h2, dMod, nodeEntries, idxEntries, objCounts_cons,
        entryCounts, objCounts, counts_add_zero, counts_zero_add, Counts.swap]
  case num.num x y =>
    by_cases hxy : x = y
    · subst hxy; simp [jdpDiff, jeq, nodeEntries, objCounts, Counts.swap]
    · have h2 : ¬y = x := fun h => hxy h.symm
      simp [jdpDiff, jeq, hxy, h2, dMod, nodeEntries, idxEntries, objCounts_cons,
        entryCounts, objCounts, counts_add_zero, counts_zero_add, Counts.swap]
  case str.str x y =>
    by_cases hxy : x = y
    · subst hxy; simp [jdpDiff, jeq, nodeEntries, objCounts, Counts.swap]
    · have h2 : ¬y = x := fun h => hxy h.symm
      simp [jdpDiff, jeq, hxy, h2, dMod, nodeEntries, idxEntries, objCounts_cons,
        entryCounts, objCounts, counts_add_zero, counts_zero_add, Counts.swap]
  all_goals first
    | (simp [jdpDiff, jeq, dMod, nodeEntries, idxEntries, objCounts_cons,
        entryCounts, objCounts, counts_add_zero, counts_zero_add, Counts.swap]; done)
    | (exfalso; simp [sameTopKind, isObjV, isArrV] at hk)

/-- C6 counterexample: diffing the array text with a scalar text in both
orders yields one addition each way, so the addition count of one
direction differs from the deletion count of the other. -/
theorem count_symmetry_cex :
    (∃ v, parseJSON "[5]" = Except.ok v) ∧
    (∃ v, parseJSON "1" = Except.ok v) ∧
    (calculateDiffSync "[5]" "1" {}).summary.additionCount = 1 ∧
    (calculateDiffSync "1" "[5]" {}).summary.deletionCount = 0 ∧
    ¬ ((calculateDiffSync "[5]" "1" {}).summary.additionCount =
       (calculateDiffSync "1" "[5]" {}).summary.deletionCount) :=
  ⟨⟨_, rfl⟩, ⟨_, rfl⟩, rfl, rfl, by decide⟩

/-- C6 amended: for valid inputs whose top-level values are of the same
kind (both objects, both arrays, or both scalars), the summaries of the
two diff orders have addition and deletion counts exchanged and the
same modification count. -/
theorem calculateDiffSync_count_symmetry (a b : String) (opts : DiffOptionsInput)
    (va vb : JsonValue) (ha : parseJSON a = .ok va) (hb : parseJSON b = .ok vb)
    (hk : sameTopKind va vb = true) :
    (calculateDiffSync a b opts).summary.additionCount =
      (calculateDiffSync b a opts).summary.deletionCount ∧
    (calculateDiffSync a b opts).summary.deletionCount =
      (calculateDiffSync b a opts).summary.additionCount ∧
    (calculateDiffSync a b opts).summary.modificationCount =
      (calculateDiffSync b a opts).summary.modificationCount := by
  rw [calculateDiffSync_ok_ok a b opts va vb ha hb, calculateDiffSync_ok_ok b a opts vb va hb ha]
  have h1 := traverseDelta_counts (sizeO (nodeEntries ((jdpDiff va vb).getD (.obj .nil))))
    (nodeEntries ((jdpDiff va vb).getD (.obj .nil))) (some va) (some vb) [] 1 0 le_rfl
  have h2 := traverseDelta_counts (sizeO (nodeEntries ((jdpDiff vb va).getD (.obj .nil))))
    (nodeEntries ((jdpDiff vb va).getD (.obj .nil))) (some vb) (some va) [] 1 0 le_rfl
  have hsym := topCounts_symm va vb (parseJSON_wf a va ha) (parseJSON_wf b vb hb) hk
  have key : changesCounts
      (parseDeltaToDiffChanges (some ((jdpDiff vb va).getD (.obj .nil))) (some vb) (some va)) =
      (changesCounts
        (parseDeltaToDiffChanges (some ((jdpDiff va vb).getD (.obj .nil)))
          (some va) (some vb))).swap := by
    show changesCounts
        (traverseDelta (nodeEntries ((jdpDiff vb va).getD (.obj .nil)))
          (some vb) (some va) [] 1 0).1 = _
    rw [h2, hsym, ← h1]
    rfl
  refine ⟨?_, ?_, ?_⟩
  · show (changesCounts
        (parseDeltaToDiffChanges (some ((jdpDiff va vb).getD (.obj .nil)))
          (some va) (some vb))).adds =
      (changesCounts
        (parseDeltaToDiffChanges (some ((jdpDiff vb va).getD (.obj .nil)))
          (some vb) (some va))).dels
    rw [key]
    rfl
  · show (changesCounts
        (parseDeltaToDiffChanges (some ((jdpDiff va vb).getD (.obj .nil)))
          (some va) (some vb))).dels =
      (changesCounts
        (parseDeltaToDiffChanges (some ((jdpDiff vb va).getD (.obj .nil)))
          (some vb) (some va))).adds
    rw [key]
    rfl
  · show (changesCounts
        (parseDeltaToDiffChanges (some ((jdpDiff va vb).getD (.obj .nil)))
          (some va) (some vb))).mods =
      (changesCounts
        (parseDeltaToDiffChanges (some ((jdpDiff vb va).getD (.obj .nil)))
          (some vb) (some va))).mods
    rw [key]
    rfl

/-- C6 witness: two concrete object documents, exercising the amended
symmetry. -/
theorem calculateDiffSync_count_symmetry_witness :
    parseJSON "\x7b\"a\":1\x7d" = .ok (.obj (.cons "a" (.num 1) .nil)) ∧
    parseJSON "\x7b\"a\":2,\"b\":3\x7d" =
      .ok (.obj (.cons "a" (.num 2) (.cons "b" (.num 3) .nil))) ∧
    sameTopKind (.obj (.cons "a" (.num 1) .nil))
      (.obj (.cons "a" (.num 2) (.cons "b" (.num 3) .nil))) = true ∧
    (calculateDiffSync "\x7b\"a\":1\x7d" "\x7b\"a\":2,\"b\":3\x7d" {}).summary.additionCount =
      (calculateDiffSync "\x7b\"a\":2,\"b\":3\x7d" "\x7b\"a\":1\x7d" {}).summary.deletionCount ∧
    (calculateDiffSync "\x7b\"a\":1\x7d" "\x7b\"a\":2,\"b\":3\x7d" {}).summary.modificationCount =
      (calculateDiffSync "\x7b\"a\":2,\"b\":3\x7d" "\x7b\"a\":1\x7d" {}).summary.modificationCount := by
  have h := calculateDiffSync_count_symmetry "\x7b\"a\":1\x7d" "\x7b\"a\":2,\"b\":3\x7d" {}
    (.obj (.cons "a" (.num 1) .nil)) (.obj (.cons "a" (.num 2) (.cons "b" (.num 3) .nil)))
    rfl rfl rfl
  exact ⟨rfl, rfl, rfl, h.1, h.2.2⟩
